import Mathlib

/-! Shallow embedding of the cache implementations of `CacheImpl.hpp`
(classes `FILOCache`, `FIFOCache`, `LRUCache`, `LFUCache` of namespace
`CacheImpl`).  Each C++ class keeps a `std::list` of entries together with
a hash map from keys to list iterators; the hash map is only ever used to
locate the unique list node that stores a key, and the code keeps both
containers in bijection, so the pair (list, hash map) is represented here
by the list alone and `m_hashmap.size()` by the list length.  `std::size_t`
is modelled by `Nat`; the C++ `int` frequency counters of the LFU cache
are modelled by `Int` (they are only 0/1-initialised and incremented, so
no wrap-around behaviour is ever exercised; signed overflow would be
undefined behaviour in the source).  `V get(const K&)`, which either
returns a value or throws `std::invalid_argument("Key is not found!")`,
is modelled as returning an `Option V` (with `none` for the exception)
paired with the state after the call.  `std::unordered_map` iteration
order is never observed by the code, so the LFU frequency map is modelled
as an association list with pairwise distinct keys. -/

set_option linter.unusedSectionVars false
set_option linter.unnecessarySeqFocus false

namespace CacheImpl

variable {K V : Type}

section KeyListOps

variable [DecidableEq K]

/-- Models `m_hashmap.find(key)` followed by reading `iter->second->second`
on a (list, hash-map) pair kept in bijection: the value stored for `key`
in `m_list`, if any. -/
def keyFind : List (K × V) → K → Option V
  | [], _ => none
  | p :: t, key => if p.1 = key then some p.2 else keyFind t key

/-- Models `m_list.erase(iter)` where `iter` is the hash map's (unique)
list node for `key`: removes the entry of `key` from the list. -/
def eraseKey : List (K × V) → K → List (K × V)
  | [], _ => []
  | p :: t, key => if p.1 = key then t else p :: eraseKey t key

/-- Models the in-place overwrite `iter->second->second = value;` used by
`FILOCache::put` and `FIFOCache::put` on an existing key. -/
def setValue : List (K × V) → K → V → List (K × V)
  | [], _, _ => []
  | p :: t, key, value => if p.1 = key then (p.1, value) :: t else p :: setValue t key value

end KeyListOps

/-- The operations `get` / `put` / `clear` that every policy implements
(the pure-virtual part of the base class `Cache<K, V>`), used to talk
about arbitrary operation sequences. -/
inductive CacheOp (K V : Type) where
  | get : K → CacheOp K V
  | put : K → V → CacheOp K V
  | clear : CacheOp K V

/-- State of `CacheImpl::FILOCache<K, V>`: the base-class field
`m_capacity` and the entry list `m_list` (with its index hash map
implicit, see the module comment). -/
structure FILOCache (K V : Type) where
  m_capacity : Nat
  m_list : List (K × V)
deriving DecidableEq

namespace FILOCache

variable [DecidableEq K]

/-- The constructor `FILOCache(std::size_t capacity)`. -/
def init (capacity : Nat) : FILOCache K V :=
  { m_capacity := capacity, m_list := [] }

/-- `Cache<K, V>::getCapacity`. -/
def getCapacity (c : FILOCache K V) : Nat := c.m_capacity

/-- `Cache<K, V>::setCapacity`. -/
def setCapacity (c : FILOCache K V) (capacity : Nat) : FILOCache K V :=
  { c with m_capacity := capacity }

/-- `FILOCache::get`: look the key up; if absent throw (modelled as
`none`), otherwise return the stored value.  The state is never changed. -/
def get (c : FILOCache K V) (key : K) : Option V × FILOCache K V :=
  match keyFind c.m_list key with
  | none => (none, c)
  | some v => (some v, c)

/-- `FILOCache::put`: no-op at capacity 0; for a new key, if
`m_hashmap.size() == getCapacity()` first pop the back entry, then append
the new entry at the back; for an existing key overwrite its value in
place. -/
def put (c : FILOCache K V) (key : K) (value : V) : FILOCache K V :=
  if c.m_capacity = 0 then c
  else
    match keyFind c.m_list key with
    | none =>
      if c.m_list.length = c.m_capacity then
        { c with m_list := c.m_list.dropLast ++ [(key, value)] }
      else
        { c with m_list := c.m_list ++ [(key, value)] }
    | some _ => { c with m_list := setValue c.m_list key value }

/-- `FILOCache::clear`. -/
def clear (c : FILOCache K V) : FILOCache K V :=
  { c with m_list := [] }

/-- One step of an operation sequence on a `FILOCache`. -/
def step (c : FILOCache K V) : CacheOp K V → FILOCache K V
  | .get k => (c.get k).2
  | .put k v => c.put k v
  | .clear => c.clear

/-- Run a sequence of operations on a `FILOCache`. -/
def run (c : FILOCache K V) (ops : List (CacheOp K V)) : FILOCache K V :=
  ops.foldl step c

end FILOCache

/-- State of `CacheImpl::FIFOCache<K, V>`. -/
structure FIFOCache (K V : Type) where
  m_capacity : Nat
  m_list : List (K × V)
deriving DecidableEq

namespace FIFOCache

variable [DecidableEq K]

/-- The constructor `FIFOCache(std::size_t capacity)`. -/
def init (capacity : Nat) : FIFOCache K V :=
  { m_capacity := capacity, m_list := [] }

/-- `Cache<K, V>::getCapacity`. -/
def getCapacity (c : FIFOCache K V) : Nat := c.m_capacity

/-- `Cache<K, V>::setCapacity`. -/
def setCapacity (c : FIFOCache K V) (capacity : Nat) : FIFOCache K V :=
  { c with m_capacity := capacity }

/-- `FIFOCache::get`: identical to `FILOCache::get`. -/
def get (c : FIFOCache K V) (key : K) : Option V × FIFOCache K V :=
  match keyFind c.m_list key with
  | none => (none, c)
  | some v => (some v, c)

/-- `FIFOCache::put`: no-op at capacity 0; for a new key, if
`m_hashmap.size() == getCapacity()` first pop the front entry, then
append the new entry at the back; for an existing key overwrite its value
in place. -/
def put (c : FIFOCache K V) (key : K) (value : V) : FIFOCache K V :=
  if c.m_capacity = 0 then c
  else
    match keyFind c.m_list key with
    | none =>
      if c.m_list.length = c.m_capacity then
        { c with m_list := c.m_list.tail ++ [(key, value)] }
      else
        { c with m_list := c.m_list ++ [(key, value)] }
    | some _ => { c with m_list := setValue c.m_list key value }

/-- `FIFOCache::clear`. -/
def clear (c : FIFOCache K V) : FIFOCache K V :=
  { c with m_list := [] }

/-- One step of an operation sequence on a `FIFOCache`. -/
def step (c : FIFOCache K V) : CacheOp K V → FIFOCache K V
  | .get k => (c.get k).2
  | .put k v => c.put k v
  | .clear => c.clear

/-- Run a sequence of operations on a `FIFOCache`. -/
def run (c : FIFOCache K V) (ops : List (CacheOp K V)) : FIFOCache K V :=
  ops.foldl step c

end FIFOCache

/-- State of `CacheImpl::LRUCache<K, V>`; the list front is the
most-recently-used end. -/
structure LRUCache (K V : Type) where
  m_capacity : Nat
  m_list : List (K × V)
deriving DecidableEq

namespace LRUCache

variable [DecidableEq K]

/-- The constructor `LRUCache(std::size_t capacity)`. -/
def init (capacity : Nat) : LRUCache K V :=
  { m_capacity := capacity, m_list := [] }

/-- `Cache<K, V>::getCapacity`. -/
def getCapacity (c : LRUCache K V) : Nat := c.m_capacity

/-- `Cache<K, V>::setCapacity`. -/
def setCapacity (c : LRUCache K V) (capacity : Nat) : LRUCache K V :=
  { c with m_capacity := capacity }

/-- `LRUCache::get`: on a hit, re-emplace the `(key, value)` pair at the
front of `m_list`, erase the old node and return the value; on a miss
throw (modelled as `none`) leaving the state unchanged. -/
def get (c : LRUCache K V) (key : K) : Option V × LRUCache K V :=
  match keyFind c.m_list key with
  | none => (none, c)
  | some v => (some v, { c with m_list := (key, v) :: eraseKey c.m_list key })

/-- `LRUCache::put`: no-op at capacity 0; for a new key, if
`m_hashmap.size() == getCapacity()` first pop the back (least recently
used) entry, then emplace the new entry at the front; for an existing key
erase its node and re-emplace `(key, value)` at the front. -/
def put (c : LRUCache K V) (key : K) (value : V) : LRUCache K V :=
  if c.m_capacity = 0 then c
  else
    match keyFind c.m_list key with
    | none =>
      if c.m_list.length = c.m_capacity then
        { c with m_list := (key, value) :: c.m_list.dropLast }
      else
        { c with m_list := (key, value) :: c.m_list }
    | some _ => { c with m_list := (key, value) :: eraseKey c.m_list key }

/-- `LRUCache::clear`. -/
def clear (c : LRUCache K V) : LRUCache K V :=
  { c with m_list := [] }

/-- One step of an operation sequence on a `LRUCache`. -/
def step (c : LRUCache K V) : CacheOp K V → LRUCache K V
  | .get k => (c.get k).2
  | .put k v => c.put k v
  | .clear => c.clear

/-- Run a sequence of operations on a `LRUCache`. -/
def run (c : LRUCache K V) (ops : List (CacheOp K V)) : LRUCache K V :=
  ops.foldl step c

end LRUCache

/-- The inner `struct Node` of `CacheImpl::LFUCache`. -/
structure Node (K V : Type) where
  m_key : K
  m_value : V
  m_freq : Int
deriving DecidableEq

section FreqMapOps

variable [DecidableEq K]

/-- Models `find` inside one frequency bucket (the hash map iterator
points at the unique node of a key; a bucket is scanned front to back). -/
def nodeFind : List (Node K V) → K → Option (Node K V)
  | [], _ => none
  | n :: t, key => if n.m_key = key then some n else nodeFind t key

/-- Models `bucket.erase(iter)` where `iter` is the node of `key` inside
this bucket. -/
def nodeErase : List (Node K V) → K → List (Node K V)
  | [], _ => []
  | n :: t, key => if n.m_key = key then t else n :: nodeErase t key

/-- Models reading `m_freqHashmap[f]`: the bucket stored for frequency
`f`, or the default-constructed empty list if the frequency is absent. -/
def fhLookup : List (Int × List (Node K V)) → Int → List (Node K V)
  | [], _ => []
  | p :: t, f => if p.1 = f then p.2 else fhLookup t f

/-- Models writing bucket `f` of `m_freqHashmap` (via `operator[]`),
inserting the frequency if it is absent. -/
def fhSet : List (Int × List (Node K V)) → Int → List (Node K V) → List (Int × List (Node K V))
  | [], f, l => [(f, l)]
  | p :: t, f, l => if p.1 = f then (f, l) :: t else p :: fhSet t f l

/-- Models `m_freqHashmap.erase(f)`. -/
def fhErase : List (Int × List (Node K V)) → Int → List (Int × List (Node K V))
  | [], _ => []
  | p :: t, f => if p.1 = f then t else p :: fhErase t f

/-- Models `m_hashmap.find(key)` of the LFU cache: the key hash map
points at the unique node holding `key`, which lives in one of the
frequency buckets. -/
def lfuFindNode : List (Int × List (Node K V)) → K → Option (Node K V)
  | [], _ => none
  | p :: t, key =>
    match nodeFind p.2 key with
    | some n => some n
    | none => lfuFindNode t key

/-- Models `m_hashmap.size()` of the LFU cache (one hash-map entry per
live node). -/
def lfuSize : List (Int × List (Node K V)) → Nat
  | [] => 0
  | p :: t => p.2.length + lfuSize t

/-- The keys (frequencies) present in the frequency map. -/
def fhKeys (m : List (Int × List (Node K V))) : List Int :=
  m.map Prod.fst

end FreqMapOps

/-- State of `CacheImpl::LFUCache<K, V>`: `m_minimalFreq`, the frequency
map `m_freqHashmap`, and the base-class `m_capacity` (the key hash map
`m_hashmap` is implicit: it points at the unique node of each key). -/
structure LFUCache (K V : Type) where
  m_capacity : Nat
  m_minimalFreq : Int
  m_freqHashmap : List (Int × List (Node K V))
deriving DecidableEq

namespace LFUCache

variable [DecidableEq K]

/-- The constructor `LFUCache(std::size_t capacity)`. -/
def init (capacity : Nat) : LFUCache K V :=
  { m_capacity := capacity, m_minimalFreq := 0, m_freqHashmap := [] }

/-- `Cache<K, V>::getCapacity`. -/
def getCapacity (c : LFUCache K V) : Nat := c.m_capacity

/-- `Cache<K, V>::setCapacity`. -/
def setCapacity (c : LFUCache K V) (capacity : Nat) : LFUCache K V :=
  { c with m_capacity := capacity }

/-- The frequency-bump block shared verbatim by `LFUCache::get` and the
existing-key branch of `LFUCache::put`: remove `node` (the hash map's
node for `key`) from bucket `node.m_freq`; if that bucket became empty
erase it and, when it was the minimal frequency, increment
`m_minimalFreq`; then emplace a node with frequency `node.m_freq + 1`
(carrying `value`) at the front of bucket `node.m_freq + 1` and repoint
the key hash map at it.  `get` passes the stored value, `put` the new
one. -/
def touch (c : LFUCache K V) (key : K) (node : Node K V) (value : V) : LFUCache K V :=
  if (nodeErase (fhLookup c.m_freqHashmap node.m_freq) key).isEmpty then
    { c with
      m_minimalFreq :=
        if c.m_minimalFreq = node.m_freq then c.m_minimalFreq + 1 else c.m_minimalFreq,
      m_freqHashmap :=
        fhSet (fhErase c.m_freqHashmap node.m_freq) (node.m_freq + 1)
          (Node.mk key value (node.m_freq + 1) ::
            fhLookup (fhErase c.m_freqHashmap node.m_freq) (node.m_freq + 1)) }
  else
    { c with
      m_freqHashmap :=
        fhSet
          (fhSet c.m_freqHashmap node.m_freq
            (nodeErase (fhLookup c.m_freqHashmap node.m_freq) key))
          (node.m_freq + 1)
          (Node.mk key value (node.m_freq + 1) ::
            fhLookup
              (fhSet c.m_freqHashmap node.m_freq
                (nodeErase (fhLookup c.m_freqHashmap node.m_freq) key))
              (node.m_freq + 1)) }

/-- `LFUCache::get`: on a miss throw (modelled as `none`); on a hit
return the stored value and bump the node's frequency (`touch` with the
stored value). -/
def get (c : LFUCache K V) (key : K) : Option V × LFUCache K V :=
  match lfuFindNode c.m_freqHashmap key with
  | none => (none, c)
  | some node => (some node.m_value, c.touch key node node.m_value)

/-- The eviction block of the new-key branch of `LFUCache::put`: read
`m_freqHashmap[m_minimalFreq].back()`, erase its key from the hash map,
`pop_back` the bucket and drop the bucket from the frequency map if it
became empty.  `back()` on an empty bucket would be undefined behaviour
in the source; the model leaves the map unchanged in that (unreachable
for well-formed states) case. -/
def evict (c : LFUCache K V) : List (Int × List (Node K V)) :=
  match (fhLookup c.m_freqHashmap c.m_minimalFreq).getLast? with
  | none => c.m_freqHashmap
  | some _ =>
    if ((fhLookup c.m_freqHashmap c.m_minimalFreq).dropLast).isEmpty then
      fhErase c.m_freqHashmap c.m_minimalFreq
    else
      fhSet c.m_freqHashmap c.m_minimalFreq
        ((fhLookup c.m_freqHashmap c.m_minimalFreq).dropLast)

/-- `LFUCache::put`: no-op at capacity 0; for an existing key perform the
frequency bump with the new value (`touch`); for a new key, evict the
back of the minimal-frequency bucket when `m_hashmap.size()` equals the
capacity, then set `m_minimalFreq = 1` and emplace a fresh node of
frequency 1 at the front of bucket 1. -/
def put (c : LFUCache K V) (key : K) (value : V) : LFUCache K V :=
  if c.m_capacity = 0 then c
  else
    match lfuFindNode c.m_freqHashmap key with
    | some node => c.touch key node value
    | none =>
      if lfuSize c.m_freqHashmap = c.m_capacity then
        { c with
          m_minimalFreq := 1,
          m_freqHashmap := fhSet c.evict 1 (Node.mk key value 1 :: fhLookup c.evict 1) }
      else
        { c with
          m_minimalFreq := 1,
          m_freqHashmap :=
            fhSet c.m_freqHashmap 1 (Node.mk key value 1 :: fhLookup c.m_freqHashmap 1) }

/-- `LFUCache::clear`: reset `m_minimalFreq` to 0 and drop both maps. -/
def clear (c : LFUCache K V) : LFUCache K V :=
  { c with m_minimalFreq := 0, m_freqHashmap := [] }

/-- One step of an operation sequence on a `LFUCache`. -/
def step (c : LFUCache K V) : CacheOp K V → LFUCache K V
  | .get k => (c.get k).2
  | .put k v => c.put k v
  | .clear => c.clear

/-- Run a sequence of operations on a `LFUCache`. -/
def run (c : LFUCache K V) (ops : List (CacheOp K V)) : LFUCache K V :=
  ops.foldl step c

end LFUCache

section BasicListLemmas

variable [DecidableEq K]

theorem keyFind_eq_none_iff {l : List (K × V)} {key : K} :
    keyFind l key = none ↔ ∀ p ∈ l, p.1 ≠ key := by
  induction l with
  | nil => simp [keyFind]
  | cons p t ih =>
    by_cases h : p.1 = key <;> simp [keyFind, h, ih]

theorem keyFind_append_of_none {l : List (K × V)} {key : K} {v : V}
    (h : ∀ p ∈ l, p.1 ≠ key) : keyFind (l ++ [(key, v)]) key = some v := by
  induction l with
  | nil => simp [keyFind]
  | cons p t ih =>
    have hp : p.1 ≠ key := h p (by simp)
    simpa [keyFind, hp] using ih fun q hq => h q (by simp [hq])

theorem keys_setValue {l : List (K × V)} {key : K} {v : V} :
    (setValue l key v).map Prod.fst = l.map Prod.fst := by
  induction l with
  | nil => simp [setValue]
  | cons p t ih =>
    by_cases h : p.1 = key <;> simp [setValue, h, ih]

theorem length_setValue {l : List (K × V)} {key : K} {v : V} :
    (setValue l key v).length = l.length := by
  induction l with
  | nil => simp [setValue]
  | cons p t ih =>
    by_cases h : p.1 = key <;> simp [setValue, h, ih]

theorem keyFind_setValue_self {l : List (K × V)} {key : K} {v w : V}
    (h : keyFind l key = some w) : keyFind (setValue l key v) key = some v := by
  induction l with
  | nil => simp [keyFind] at h
  | cons p t ih =>
    by_cases hp : p.1 = key
    · simp [setValue, keyFind, hp]
    · simp only [keyFind, if_neg hp] at h
      simpa [setValue, keyFind, hp] using ih h

theorem keyFind_setValue_ne {l : List (K × V)} {key k2 : K} {v : V}
    (h : k2 ≠ key) : keyFind (setValue l key v) k2 = keyFind l k2 := by
  induction l with
  | nil => simp [setValue]
  | cons p t ih =>
    simp only [setValue]
    by_cases hp : p.1 = key
    · rw [if_pos hp]
      have hne : ¬p.1 = k2 := fun e => h (e.symm.trans hp)
      simp [keyFind, hne]
    · rw [if_neg hp]
      by_cases hq : p.1 = k2 <;> simp [keyFind, hq, ih]

theorem length_eraseKey {l : List (K × V)} {key : K} {w : V}
    (h : keyFind l key = some w) : (eraseKey l key).length + 1 = l.length := by
  induction l with
  | nil => simp [keyFind] at h
  | cons p t ih =>
    by_cases hp : p.1 = key
    · simp [eraseKey, hp]
    · simp only [keyFind, if_neg hp] at h
      simpa [eraseKey, hp] using ih h

end BasicListLemmas

section SimplePolicyLemmas

variable [DecidableEq K]

theorem filo_get_fst (c : FILOCache K V) (key : K) :
    (c.get key).1 = keyFind c.m_list key := by
  unfold FILOCache.get
  cases keyFind c.m_list key <;> rfl

theorem fifo_get_fst (c : FIFOCache K V) (key : K) :
    (c.get key).1 = keyFind c.m_list key := by
  unfold FIFOCache.get
  cases keyFind c.m_list key <;> rfl

theorem lru_get_fst (c : LRUCache K V) (key : K) :
    (c.get key).1 = keyFind c.m_list key := by
  unfold LRUCache.get
  cases keyFind c.m_list key <;> rfl

theorem filo_put_capacity (c : FILOCache K V) (key : K) (value : V) :
    (c.put key value).m_capacity = c.m_capacity := by
  unfold FILOCache.put
  by_cases h : c.m_capacity = 0
  · simp [h]
  · cases hf : keyFind c.m_list key <;> simp [h, hf] <;> split <;> rfl

theorem fifo_put_capacity (c : FIFOCache K V) (key : K) (value : V) :
    (c.put key value).m_capacity = c.m_capacity := by
  unfold FIFOCache.put
  by_cases h : c.m_capacity = 0
  · simp [h]
  · cases hf : keyFind c.m_list key <;> simp [h, hf] <;> split <;> rfl

theorem lru_put_capacity (c : LRUCache K V) (key : K) (value : V) :
    (c.put key value).m_capacity = c.m_capacity := by
  unfold LRUCache.put
  by_cases h : c.m_capacity = 0
  · simp [h]
  · cases hf : keyFind c.m_list key <;> simp [h, hf] <;> split <;> rfl

theorem filo_put_of_found (c : FILOCache K V) (key : K) (value w : V)
    (h : c.m_capacity ≠ 0) (hf : keyFind c.m_list key = some w) :
    (c.put key value).m_list = setValue c.m_list key value := by
  unfold FILOCache.put
  rw [if_neg h, hf]

theorem fifo_put_of_found (c : FIFOCache K V) (key : K) (value w : V)
    (h : c.m_capacity ≠ 0) (hf : keyFind c.m_list key = some w) :
    (c.put key value).m_list = setValue c.m_list key value := by
  unfold FIFOCache.put
  rw [if_neg h, hf]

theorem lru_put_of_found (c : LRUCache K V) (key : K) (value w : V)
    (h : c.m_capacity ≠ 0) (hf : keyFind c.m_list key = some w) :
    (c.put key value).m_list = (key, value) :: eraseKey c.m_list key := by
  unfold LRUCache.put
  rw [if_neg h, hf]

theorem filo_keyFind_put_self (c : FILOCache K V) (key : K) (value : V)
    (h : c.m_capacity ≠ 0) :
    keyFind (c.put key value).m_list key = some value := by
  unfold FILOCache.put
  rw [if_neg h]
  cases hf : keyFind c.m_list key with
  | none =>
    have habs : ∀ p ∈ c.m_list, p.1 ≠ key := keyFind_eq_none_iff.mp hf
    by_cases hl : c.m_list.length = c.m_capacity
    · simpa [hl] using
        keyFind_append_of_none fun p hp => habs p (List.dropLast_sublist _ |>.mem hp)
    · simpa [hl] using keyFind_append_of_none habs
  | some w => simpa using keyFind_setValue_self hf

theorem fifo_keyFind_put_self (c : FIFOCache K V) (key : K) (value : V)
    (h : c.m_capacity ≠ 0) :
    keyFind (c.put key value).m_list key = some value := by
  unfold FIFOCache.put
  rw [if_neg h]
  cases hf : keyFind c.m_list key with
  | none =>
    have habs : ∀ p ∈ c.m_list, p.1 ≠ key := keyFind_eq_none_iff.mp hf
    by_cases hl : c.m_list.length = c.m_capacity
    · simpa [hl] using
        keyFind_append_of_none fun p hp => habs p (List.tail_sublist _ |>.mem hp)
    · simpa [hl] using keyFind_append_of_none habs
  | some w => simpa using keyFind_setValue_self hf

theorem lru_keyFind_put_self (c : LRUCache K V) (key : K) (value : V)
    (h : c.m_capacity ≠ 0) :
    keyFind (c.put key value).m_list key = some value := by
  unfold LRUCache.put
  rw [if_neg h]
  cases hf : keyFind c.m_list key with
  | none =>
    by_cases hl : c.m_list.length = c.m_capacity <;> simp [hl, keyFind]
  | some w => simp [keyFind]

end SimplePolicyLemmas

/-- C3: on an LFU cache of capacity 2, the sequence
`put(1,1); put(2,2); get(1); put(3,3); get(2); get(3); put(4,4); get(1); get(3); get(4)`
returns 1 for the first `get(1)`; `put(3,3)` evicts key 2 so `get(2)`
fails KeyNotFound and `get(3)` returns 3; `put(4,4)` evicts key 1 (the
least-recently-promoted of the two frequency-2 entries) so the second
`get(1)` fails KeyNotFound; the final `get(3)` and `get(4)` return 3
and 4. -/
theorem c3_lfu_scenario :
    ((LFUCache.run (LFUCache.init 2 : LFUCache Nat Nat)
        [CacheOp.put 1 1, CacheOp.put 2 2]).get 1).1 = some 1 ∧
    ((LFUCache.run (LFUCache.init 2 : LFUCache Nat Nat)
        [CacheOp.put 1 1, CacheOp.put 2 2, CacheOp.get 1, CacheOp.put 3 3]).get 2).1 = none ∧
    ((LFUCache.run (LFUCache.init 2 : LFUCache Nat Nat)
        [CacheOp.put 1 1, CacheOp.put 2 2, CacheOp.get 1, CacheOp.put 3 3,
          CacheOp.get 2]).get 3).1 = some 3 ∧
    ((LFUCache.run (LFUCache.init 2 : LFUCache Nat Nat)
        [CacheOp.put 1 1, CacheOp.put 2 2, CacheOp.get 1, CacheOp.put 3 3, CacheOp.get 2,
          CacheOp.get 3, CacheOp.put 4 4]).get 1).1 = none ∧
    ((LFUCache.run (LFUCache.init 2 : LFUCache Nat Nat)
        [CacheOp.put 1 1, CacheOp.put 2 2, CacheOp.get 1, CacheOp.put 3 3, CacheOp.get 2,
          CacheOp.get 3, CacheOp.put 4 4, CacheOp.get 1]).get 3).1 = some 3 ∧
    ((LFUCache.run (LFUCache.init 2 : LFUCache Nat Nat)
        [CacheOp.put 1 1, CacheOp.put 2 2, CacheOp.get 1, CacheOp.put 3 3, CacheOp.get 2,
          CacheOp.get 3, CacheOp.put 4 4, CacheOp.get 1, CacheOp.get 3]).get 4).1 = some 4 := by
  decide

/-- C4: on an LRU cache, every successful `get` moves the accessed entry
to the front (most-recently-used) position and returns its value, and a
new-key `put` at capacity evicts the back (least-recently-used) entry;
concretely, with capacity 2, `put(1,1); put(2,2); get(1); put(3,3);
get(2); put(4,4); get(1); get(3); get(4)` yields `get(1) = 1`, then
`put(3,3)` evicts key 2 (`get(2)` fails KeyNotFound), `put(4,4)` evicts
key 1 (`get(1)` fails KeyNotFound), and `get(3) = 3`, `get(4) = 4`. -/
theorem c4_lru_promotion_and_scenario :
    (∀ (c : LRUCache Nat Nat) (key : Nat) (v : Nat),
        keyFind c.m_list key = some v →
        c.get key = (some v, { c with m_list := (key, v) :: eraseKey c.m_list key })) ∧
    (∀ (c : LRUCache Nat Nat) (key : Nat) (value : Nat),
        c.m_capacity ≠ 0 → keyFind c.m_list key = none →
        c.m_list.length = c.m_capacity →
        (c.put key value).m_list = (key, value) :: c.m_list.dropLast) ∧
    (let s2 := ((LRUCache.init 2 : LRUCache Nat Nat).put 1 1).put 2 2
     let g1 := s2.get 1
     let s4 := g1.2.put 3 3
     let g2 := s4.get 2
     let s6 := g2.2.put 4 4
     let g1b := s6.get 1
     let g3 := g1b.2.get 3
     let g4 := g3.2.get 4
     g1.1 = some 1 ∧ g2.1 = none ∧ g1b.1 = none ∧ g3.1 = some 3 ∧ g4.1 = some 4) := by
  refine ⟨?_, ?_, by decide⟩
  · intro c key v hf
    unfold LRUCache.get
    rw [hf]
  · intro c key value hcap hf hlen
    unfold LRUCache.put
    rw [if_neg hcap, hf]
    simp [hlen]

/-- C4 witness: the promotion and eviction clauses of `c4_lru_promotion_and_scenario`
instantiated on concrete caches. -/
theorem c4_lru_witness :
    (LRUCache.mk 2 [(1, 1), (2, 2)] : LRUCache Nat Nat).get 1 =
      (some 1, LRUCache.mk 2 ((1, 1) :: eraseKey [(1, 1), (2, 2)] 1)) ∧
    ((LRUCache.mk 2 [(1, 1), (2, 2)] : LRUCache Nat Nat).put 3 3).m_list =
      (3, 3) :: ([(1, 1), (2, 2)] : List (Nat × Nat)).dropLast :=
  ⟨c4_lru_promotion_and_scenario.1 _ 1 1 (by decide),
    c4_lru_promotion_and_scenario.2.1 _ 3 3 (by decide) (by decide) (by decide)⟩

/-- C5: for the FILO cache, `put` is a no-op at capacity 0; an
existing-key `put` (with nonzero capacity, which the code checks first)
overwrites the value in place without reordering (key order unchanged,
the key now maps to the new value, all other keys unchanged); a new-key
`put` at capacity evicts the entry at the tail of the sequence and then
appends the new entry at the tail. -/
theorem c5_filo_put :
    (∀ (c : FILOCache Nat Nat) (key value : Nat),
        c.m_capacity = 0 → c.put key value = c) ∧
    (∀ (c : FILOCache Nat Nat) (key value w : Nat),
        c.m_capacity ≠ 0 → keyFind c.m_list key = some w →
        (c.put key value).m_list.map Prod.fst = c.m_list.map Prod.fst ∧
        keyFind (c.put key value).m_list key = some value ∧
        ∀ k2, k2 ≠ key → keyFind (c.put key value).m_list k2 = keyFind c.m_list k2) ∧
    (∀ (c : FILOCache Nat Nat) (key value : Nat),
        c.m_capacity ≠ 0 → keyFind c.m_list key = none →
        c.m_list.length = c.m_capacity →
        (c.put key value).m_list = c.m_list.dropLast ++ [(key, value)]) := by
  refine ⟨?_, ?_, ?_⟩
  · intro c key value h
    unfold FILOCache.put
    rw [if_pos h]
  · intro c key value w hcap hf
    rw [filo_put_of_found c key value w hcap hf]
    exact ⟨keys_setValue, keyFind_setValue_self hf, fun k2 hk2 => keyFind_setValue_ne hk2⟩
  · intro c key value hcap hf hlen
    unfold FILOCache.put
    rw [if_neg hcap, hf]
    simp [hlen]

/-- C5 witness: the three clauses of `c5_filo_put` instantiated on
concrete caches. -/
theorem c5_filo_witness :
    (FILOCache.mk 0 [] : FILOCache Nat Nat).put 1 1 = FILOCache.mk 0 [] ∧
    keyFind ((FILOCache.mk 2 [(1, 1), (2, 2)] : FILOCache Nat Nat).put 1 7).m_list 1 =
      some 7 ∧
    ((FILOCache.mk 2 [(1, 1), (2, 2)] : FILOCache Nat Nat).put 3 3).m_list =
      ([(1, 1), (2, 2)] : List (Nat × Nat)).dropLast ++ [(3, 3)] :=
  ⟨c5_filo_put.1 _ 1 1 (by decide),
    (c5_filo_put.2.1 _ 1 7 1 (by decide) (by decide)).2.1,
    c5_filo_put.2.2 _ 3 3 (by decide) (by decide) (by decide)⟩

/-- C6: for the FIFO cache, an existing-key `put` (with nonzero
capacity) overwrites the value in place without changing the insertion
position, and a new-key `put` at capacity evicts the head (oldest) entry
before appending at the tail; concretely, with capacity 3,
`put(1,1); put(2,2); put(1,15); get(1); put(3,3); put(4,4); get(1); get(2)`
yields `get(1) = 15`, then `put(4,4)` evicts key 1 (oldest by insertion,
unaffected by the earlier update) so `get(1)` fails KeyNotFound while
`get(2) = 2`. -/
theorem c6_fifo_put :
    (∀ (c : FIFOCache Nat Nat) (key value w : Nat),
        c.m_capacity ≠ 0 → keyFind c.m_list key = some w →
        (c.put key value).m_list.map Prod.fst = c.m_list.map Prod.fst ∧
        keyFind (c.put key value).m_list key = some value ∧
        ∀ k2, k2 ≠ key → keyFind (c.put key value).m_list k2 = keyFind c.m_list k2) ∧
    (∀ (c : FIFOCache Nat Nat) (key value : Nat),
        c.m_capacity ≠ 0 → keyFind c.m_list key = none →
        c.m_list.length = c.m_capacity →
        (c.put key value).m_list = c.m_list.tail ++ [(key, value)]) ∧
    (let s3 := (((FIFOCache.init 3 : FIFOCache Nat Nat).put 1 1).put 2 2).put 1 15
     let g1 := s3.get 1
     let s5 := (g1.2.put 3 3).put 4 4
     let g1b := s5.get 1
     let g2 := g1b.2.get 2
     g1.1 = some 15 ∧ g1b.1 = none ∧ g2.1 = some 2) := by
  refine ⟨?_, ?_, by decide⟩
  · intro c key value w hcap hf
    rw [fifo_put_of_found c key value w hcap hf]
    exact ⟨keys_setValue, keyFind_setValue_self hf, fun k2 hk2 => keyFind_setValue_ne hk2⟩
  · intro c key value hcap hf hlen
    unfold FIFOCache.put
    rw [if_neg hcap, hf]
    simp [hlen]

/-- C6 witness: the overwrite and eviction clauses of `c6_fifo_put`
instantiated on concrete caches. -/
theorem c6_fifo_witness :
    keyFind ((FIFOCache.mk 2 [(1, 1), (2, 2)] : FIFOCache Nat Nat).put 1 7).m_list 1 =
      some 7 ∧
    ((FIFOCache.mk 2 [(1, 1), (2, 2)] : FIFOCache Nat Nat).put 3 3).m_list =
      ([(1, 1), (2, 2)] : List (Nat × Nat)).tail ++ [(3, 3)] :=
  ⟨(c6_fifo_put.1 _ 1 7 1 (by decide) (by decide)).2.1,
    c6_fifo_put.2.1 _ 3 3 (by decide) (by decide) (by decide)⟩

section RunZeroLemmas

variable [DecidableEq K]

theorem filo_run_zero (ops : List (CacheOp K V)) :
    FILOCache.run (FILOCache.init 0) ops = FILOCache.init 0 := by
  induction ops with
  | nil => rfl
  | cons op t ih =>
    have hs : FILOCache.step (FILOCache.init 0 : FILOCache K V) op = FILOCache.init 0 := by
      cases op <;> rfl
    show FILOCache.run (FILOCache.step (FILOCache.init 0) op) t = FILOCache.init 0
    rw [hs]
    exact ih

theorem fifo_run_zero (ops : List (CacheOp K V)) :
    FIFOCache.run (FIFOCache.init 0) ops = FIFOCache.init 0 := by
  induction ops with
  | nil => rfl
  | cons op t ih =>
    have hs : FIFOCache.step (FIFOCache.init 0 : FIFOCache K V) op = FIFOCache.init 0 := by
      cases op <;> rfl
    show FIFOCache.run (FIFOCache.step (FIFOCache.init 0) op) t = FIFOCache.init 0
    rw [hs]
    exact ih

theorem lru_run_zero (ops : List (CacheOp K V)) :
    LRUCache.run (LRUCache.init 0) ops = LRUCache.init 0 := by
  induction ops with
  | nil => rfl
  | cons op t ih =>
    have hs : LRUCache.step (LRUCache.init 0 : LRUCache K V) op = LRUCache.init 0 := by
      cases op <;> rfl
    show LRUCache.run (LRUCache.step (LRUCache.init 0) op) t = LRUCache.init 0
    rw [hs]
    exact ih

theorem lfu_run_zero (ops : List (CacheOp K V)) :
    LFUCache.run (LFUCache.init 0) ops = LFUCache.init 0 := by
  induction ops with
  | nil => rfl
  | cons op t ih =>
    have hs : LFUCache.step (LFUCache.init 0 : LFUCache K V) op = LFUCache.init 0 := by
      cases op <;> rfl
    show LFUCache.run (LFUCache.step (LFUCache.init 0) op) t = LFUCache.init 0
    rw [hs]
    exact ih

end RunZeroLemmas

/-- C9: for every policy, a cache constructed with capacity 0 (capacity
never changed) stores no key after any sequence of get/put/clear
operations: its size stays 0 and every `get` fails KeyNotFound. -/
theorem c9_capacity_zero {K V : Type} [DecidableEq K] :
    (∀ (ops : List (CacheOp K V)) (key : K),
        (FILOCache.run (FILOCache.init 0) ops).m_list.length = 0 ∧
        ((FILOCache.run (FILOCache.init 0) ops).get key).1 = none) ∧
    (∀ (ops : List (CacheOp K V)) (key : K),
        (FIFOCache.run (FIFOCache.init 0) ops).m_list.length = 0 ∧
        ((FIFOCache.run (FIFOCache.init 0) ops).get key).1 = none) ∧
    (∀ (ops : List (CacheOp K V)) (key : K),
        (LRUCache.run (LRUCache.init 0) ops).m_list.length = 0 ∧
        ((LRUCache.run (LRUCache.init 0) ops).get key).1 = none) ∧
    (∀ (ops : List (CacheOp K V)) (key : K),
        lfuSize (LFUCache.run (LFUCache.init 0) ops).m_freqHashmap = 0 ∧
        ((LFUCache.run (LFUCache.init 0) ops).get key).1 = none) := by
  refine ⟨fun ops key => ?_, fun ops key => ?_, fun ops key => ?_, fun ops key => ?_⟩
  · rw [filo_run_zero]
    exact ⟨rfl, rfl⟩
  · rw [fifo_run_zero]
    exact ⟨rfl, rfl⟩
  · rw [lru_run_zero]
    exact ⟨rfl, rfl⟩
  · rw [lfu_run_zero]
    exact ⟨rfl, rfl⟩

/-- C10: for every policy, a `get` on an absent key fails KeyNotFound and
leaves the entire cache state (entries, order, frequencies,
`m_minimalFreq`, capacity) unchanged. -/
theorem c10_failed_get_pure {K V : Type} [DecidableEq K] :
    (∀ (c : FILOCache K V) (key : K),
        keyFind c.m_list key = none → c.get key = (none, c)) ∧
    (∀ (c : FIFOCache K V) (key : K),
        keyFind c.m_list key = none → c.get key = (none, c)) ∧
    (∀ (c : LRUCache K V) (key : K),
        keyFind c.m_list key = none → c.get key = (none, c)) ∧
    (∀ (c : LFUCache K V) (key : K),
        lfuFindNode c.m_freqHashmap key = none → c.get key = (none, c)) := by
  refine ⟨fun c key h => ?_, fun c key h => ?_, fun c key h => ?_, fun c key h => ?_⟩
  · unfold FILOCache.get
    rw [h]
  · unfold FIFOCache.get
    rw [h]
  · unfold LRUCache.get
    rw [h]
  · unfold LFUCache.get
    rw [h]

/-- C10 witness: a failed `get` on each policy at a concrete state. -/
theorem c10_failed_get_witness :
    (FILOCache.mk 2 [(1, 1)] : FILOCache Nat Nat).get 5 = (none, FILOCache.mk 2 [(1, 1)]) ∧
    (FIFOCache.mk 2 [(1, 1)] : FIFOCache Nat Nat).get 5 = (none, FIFOCache.mk 2 [(1, 1)]) ∧
    (LRUCache.mk 2 [(1, 1)] : LRUCache Nat Nat).get 5 = (none, LRUCache.mk 2 [(1, 1)]) ∧
    (LFUCache.mk 2 1 [(1, [Node.mk 1 1 1])] : LFUCache Nat Nat).get 5 =
      (none, LFUCache.mk 2 1 [(1, [Node.mk 1 1 1])]) :=
  ⟨c10_failed_get_pure.1 _ 5 (by decide), c10_failed_get_pure.2.1 _ 5 (by decide),
    c10_failed_get_pure.2.2.1 _ 5 (by decide), c10_failed_get_pure.2.2.2 _ 5 (by decide)⟩

section FreqMapLemmas

variable [DecidableEq K]

theorem fhSet_ne_nil {m : List (Int × List (Node K V))} {f : Int} {l : List (Node K V)} :
    fhSet m f l ≠ [] := by
  cases m with
  | nil => simp [fhSet]
  | cons p t =>
    by_cases h : p.1 = f <;> simp [fhSet, h]

theorem mem_fhSet {m : List (Int × List (Node K V))} {f : Int} {l : List (Node K V)}
    {p : Int × List (Node K V)} (h : p ∈ fhSet m f l) : p = (f, l) ∨ p ∈ m := by
  induction m with
  | nil => simpa [fhSet] using h
  | cons q t ih =>
    by_cases hq : q.1 = f
    · rw [fhSet, if_pos hq] at h
      rcases List.mem_cons.mp h with h | h
      · exact Or.inl h
      · exact Or.inr (List.mem_cons_of_mem _ h)
    · rw [fhSet, if_neg hq] at h
      rcases List.mem_cons.mp h with h | h
      · exact Or.inr (h ▸ List.mem_cons_self _ _)
      · rcases ih h with h | h
        · exact Or.inl h
        · exact Or.inr (List.mem_cons_of_mem _ h)

theorem self_mem_fhSet {m : List (Int × List (Node K V))} {f : Int} {l : List (Node K V)} :
    (f, l) ∈ fhSet m f l := by
  induction m with
  | nil => simp [fhSet]
  | cons q t ih =>
    by_cases hq : q.1 = f <;> simp [fhSet, hq, ih]

theorem fhKeys_nil : fhKeys ([] : List (Int × List (Node K V))) = [] := rfl

theorem fhKeys_cons {q : Int × List (Node K V)} {t : List (Int × List (Node K V))} :
    fhKeys (q :: t) = q.1 :: fhKeys t := rfl

theorem mem_keys_fhSet {m : List (Int × List (Node K V))} {g f : Int} {l : List (Node K V)}
    (h : g ∈ fhKeys m) : g ∈ fhKeys (fhSet m f l) := by
  induction m with
  | nil => simp [fhKeys_nil] at h
  | cons q t ih =>
    rw [fhKeys_cons] at h
    by_cases hq : q.1 = f
    · rw [fhSet, if_pos hq, fhKeys_cons]
      rcases List.mem_cons.mp h with h | h
      · exact List.mem_cons.mpr (Or.inl (h.trans hq))
      · exact List.mem_cons.mpr (Or.inr h)
    · rw [fhSet, if_neg hq, fhKeys_cons]
      rcases List.mem_cons.mp h with h | h
      · exact List.mem_cons.mpr (Or.inl h)
      · exact List.mem_cons.mpr (Or.inr (ih h))

theorem keys_fhSet_self {m : List (Int × List (Node K V))} {f : Int} {l : List (Node K V)} :
    f ∈ fhKeys (fhSet m f l) := by
  have := self_mem_fhSet (m := m) (f := f) (l := l)
  exact List.mem_map.mpr ⟨(f, l), this, rfl⟩

theorem keys_fhSet_subset {m : List (Int × List (Node K V))} {f g : Int} {l : List (Node K V)}
    (h : g ∈ fhKeys (fhSet m f l)) : g = f ∨ g ∈ fhKeys m := by
  rcases List.mem_map.mp h with ⟨p, hp, hg⟩
  rcases mem_fhSet hp with h1 | h1
  · left
    rw [← hg, h1]
  · right
    exact hg ▸ List.mem_map.mpr ⟨p, h1, rfl⟩

theorem nodup_keys_fhSet {m : List (Int × List (Node K V))} {f : Int} {l : List (Node K V)}
    (h : (fhKeys m).Nodup) : (fhKeys (fhSet m f l)).Nodup := by
  induction m with
  | nil => simp [fhSet, fhKeys]
  | cons q t ih =>
    simp only [fhKeys, List.map_cons, List.nodup_cons] at h
    by_cases hq : q.1 = f
    · rw [fhSet, if_pos hq]
      simp only [fhKeys, List.map_cons, List.nodup_cons]
      exact ⟨hq ▸ h.1, h.2⟩
    · rw [fhSet, if_neg hq]
      simp only [fhKeys, List.map_cons, List.nodup_cons]
      refine ⟨fun hmem => ?_, ih h.2⟩
      rcases keys_fhSet_subset hmem with h1 | h1
      · exact hq h1
      · exact h.1 (by simpa [fhKeys] using h1)

theorem mem_fhSet_nodup {m : List (Int × List (Node K V))} {f : Int} {l : List (Node K V)}
    {p : Int × List (Node K V)} (hn : (fhKeys m).Nodup) (h : p ∈ fhSet m f l) :
    p = (f, l) ∨ (p ∈ m ∧ p.1 ≠ f) := by
  induction m with
  | nil =>
    simp only [fhSet, List.mem_singleton] at h
    exact Or.inl h
  | cons q t ih =>
    simp only [fhKeys, List.map_cons, List.nodup_cons] at hn
    by_cases hq : q.1 = f
    · rw [fhSet, if_pos hq] at h
      rcases List.mem_cons.mp h with h | h
      · exact Or.inl h
      · refine Or.inr ⟨List.mem_cons_of_mem _ h, fun hpf => ?_⟩
        exact hn.1 (hq ▸ hpf ▸ List.mem_map.mpr ⟨p, h, rfl⟩)
    · rw [fhSet, if_neg hq] at h
      rcases List.mem_cons.mp h with h | h
      · exact Or.inr ⟨h ▸ List.mem_cons_self _ _, h ▸ hq⟩
      · rcases ih hn.2 h with h1 | h1
        · exact Or.inl h1
        · exact Or.inr ⟨List.mem_cons_of_mem _ h1.1, h1.2⟩

theorem fhErase_sublist {m : List (Int × List (Node K V))} {f : Int} :
    List.Sublist (fhErase m f) m := by
  induction m with
  | nil => simp [fhErase]
  | cons q t ih =>
    by_cases hq : q.1 = f
    · rw [fhErase, if_pos hq]
      exact List.sublist_cons_self _ _
    · rw [fhErase, if_neg hq]
      exact ih.cons₂ _

theorem mem_fhErase_nodup {m : List (Int × List (Node K V))} {f : Int}
    {p : Int × List (Node K V)} (hn : (fhKeys m).Nodup) (h : p ∈ fhErase m f) :
    p ∈ m ∧ p.1 ≠ f := by
  induction m with
  | nil => simp [fhErase] at h
  | cons q t ih =>
    simp only [fhKeys, List.map_cons, List.nodup_cons] at hn
    by_cases hq : q.1 = f
    · rw [fhErase, if_pos hq] at h
      refine ⟨List.mem_cons_of_mem _ h, fun hpf => ?_⟩
      exact hn.1 (hq ▸ hpf ▸ List.mem_map.mpr ⟨p, h, rfl⟩)
    · rw [fhErase, if_neg hq] at h
      rcases List.mem_cons.mp h with h | h
      · exact ⟨h ▸ List.mem_cons_self _ _, h ▸ hq⟩
      · rcases ih hn.2 h with ⟨h1, h2⟩
        exact ⟨List.mem_cons_of_mem _ h1, h2⟩

theorem mem_fhErase_of_ne {m : List (Int × List (Node K V))} {f : Int}
    {p : Int × List (Node K V)} (h : p ∈ m) (hne : p.1 ≠ f) : p ∈ fhErase m f := by
  induction m with
  | nil => simp at h
  | cons q t ih =>
    rcases List.mem_cons.mp h with h | h
    · have hq : ¬q.1 = f := h ▸ hne
      rw [fhErase, if_neg hq]
      exact h ▸ List.mem_cons_self _ _
    · by_cases hq : q.1 = f
      · rw [fhErase, if_pos hq]
        exact h
      · rw [fhErase, if_neg hq]
        exact List.mem_cons_of_mem _ (ih h)

theorem fhLookup_eq_of_mem {m : List (Int × List (Node K V))} {f : Int} {l : List (Node K V)}
    (hn : (fhKeys m).Nodup) (h : (f, l) ∈ m) : fhLookup m f = l := by
  induction m with
  | nil => simp at h
  | cons q t ih =>
    simp only [fhKeys, List.map_cons, List.nodup_cons] at hn
    rcases List.mem_cons.mp h with h | h
    · rw [← h, fhLookup, if_pos rfl]
    · have hq : ¬q.1 = f := fun hq => hn.1 (hq ▸ List.mem_map.mpr ⟨(f, l), h, hq ▸ rfl⟩)
      rw [fhLookup, if_neg hq]
      exact ih hn.2 h

theorem fhLookup_mem {m : List (Int × List (Node K V))} {f : Int}
    (h : fhLookup m f ≠ []) : (f, fhLookup m f) ∈ m := by
  induction m with
  | nil => simp [fhLookup] at h
  | cons q t ih =>
    by_cases hq : q.1 = f
    · rw [fhLookup, if_pos hq] at h ⊢
      have : (f, q.2) = q := by rw [← hq]
      exact this ▸ List.mem_cons_self _ _
    · rw [fhLookup, if_neg hq] at h ⊢
      exact List.mem_cons_of_mem _ (ih h)

theorem fhLookup_fhSet_self {m : List (Int × List (Node K V))} {f : Int} {l : List (Node K V)} :
    fhLookup (fhSet m f l) f = l := by
  induction m with
  | nil => simp [fhSet, fhLookup]
  | cons q t ih =>
    by_cases hq : q.1 = f
    · rw [fhSet, if_pos hq, fhLookup, if_pos rfl]
    · rw [fhSet, if_neg hq, fhLookup, if_neg hq]
      exact ih

theorem fhLookup_fhSet_ne {m : List (Int × List (Node K V))} {f g : Int} {l : List (Node K V)}
    (h : g ≠ f) : fhLookup (fhSet m f l) g = fhLookup m g := by
  have hg : ¬(f = g) := fun e => h e.symm
  induction m with
  | nil =>
    simp only [fhSet, fhLookup]
    rw [if_neg hg]
  | cons q t ih =>
    by_cases hq : q.1 = f
    · have hqg : ¬(q.1 = g) := fun e => h (e.symm.trans hq)
      rw [fhSet, if_pos hq, fhLookup, if_neg hg, fhLookup, if_neg hqg]
    · by_cases hqg : q.1 = g
      · rw [fhSet, if_neg hq, fhLookup, if_pos hqg, fhLookup, if_pos hqg]
      · rw [fhSet, if_neg hq, fhLookup, if_neg hqg, fhLookup, if_neg hqg]
        exact ih

theorem lfuSize_fhSet {m : List (Int × List (Node K V))} {f : Int} {l : List (Node K V)} :
    lfuSize (fhSet m f l) + (fhLookup m f).length = lfuSize m + l.length := by
  induction m with
  | nil => simp [fhSet, fhLookup, lfuSize]
  | cons q t ih =>
    by_cases hq : q.1 = f
    · rw [fhSet, if_pos hq, fhLookup, if_pos hq]
      simp only [lfuSize]
      omega
    · rw [fhSet, if_neg hq, fhLookup, if_neg hq]
      simp only [lfuSize]
      omega

theorem lfuSize_fhErase {m : List (Int × List (Node K V))} {f : Int} :
    lfuSize (fhErase m f) + (fhLookup m f).length = lfuSize m := by
  induction m with
  | nil => simp [fhErase, fhLookup, lfuSize]
  | cons q t ih =>
    by_cases hq : q.1 = f
    · rw [fhErase, if_pos hq, fhLookup, if_pos hq]
      simp only [lfuSize]
      omega
    · rw [fhErase, if_neg hq, fhLookup, if_neg hq]
      simp only [lfuSize]
      omega

theorem nodeFind_some {l : List (Node K V)} {key : K} {n : Node K V}
    (h : nodeFind l key = some n) : n ∈ l ∧ n.m_key = key := by
  induction l with
  | nil => simp [nodeFind] at h
  | cons x t ih =>
    by_cases hx : x.m_key = key
    · rw [nodeFind, if_pos hx] at h
      cases h
      exact ⟨List.mem_cons_self _ _, hx⟩
    · rw [nodeFind, if_neg hx] at h
      rcases ih h with ⟨h1, h2⟩
      exact ⟨List.mem_cons_of_mem _ h1, h2⟩

theorem nodeFind_eq_none_iff {l : List (Node K V)} {key : K} :
    nodeFind l key = none ↔ ∀ n ∈ l, n.m_key ≠ key := by
  induction l with
  | nil => simp [nodeFind]
  | cons x t ih =>
    by_cases hx : x.m_key = key <;> simp [nodeFind, hx, ih]

theorem nodeErase_sublist {l : List (Node K V)} {key : K} :
    List.Sublist (nodeErase l key) l := by
  induction l with
  | nil => simp [nodeErase]
  | cons x t ih =>
    by_cases hx : x.m_key = key
    · rw [nodeErase, if_pos hx]
      exact List.sublist_cons_self _ _
    · rw [nodeErase, if_neg hx]
      exact ih.cons₂ _

theorem length_nodeErase {l : List (Node K V)} {key : K}
    (h : ∃ n ∈ l, n.m_key = key) : (nodeErase l key).length + 1 = l.length := by
  induction l with
  | nil => simp at h
  | cons x t ih =>
    by_cases hx : x.m_key = key
    · rw [nodeErase, if_pos hx]
      simp
    · rw [nodeErase, if_neg hx]
      rcases h with ⟨n, hn, hkey⟩
      rcases List.mem_cons.mp hn with hn | hn
      · exact absurd (hn ▸ hkey) hx
      · simpa using ih ⟨n, hn, hkey⟩

theorem nodeErase_no_key {l : List (Node K V)} {key : K} {x : Node K V}
    (hn : (l.map Node.m_key).Nodup) (h : x ∈ nodeErase l key) : x.m_key ≠ key := by
  induction l with
  | nil => simp [nodeErase] at h
  | cons y t ih =>
    simp only [List.map_cons, List.nodup_cons] at hn
    by_cases hy : y.m_key = key
    · rw [nodeErase, if_pos hy] at h
      intro hx
      exact hn.1 (hy ▸ hx ▸ List.mem_map.mpr ⟨x, h, rfl⟩)
    · rw [nodeErase, if_neg hy] at h
      rcases List.mem_cons.mp h with h | h
      · exact h ▸ hy
      · exact ih hn.2 h

theorem lfuFindNode_some {m : List (Int × List (Node K V))} {key : K} {n : Node K V}
    (h : lfuFindNode m key = some n) : n.m_key = key ∧ ∃ p ∈ m, n ∈ p.2 := by
  induction m with
  | nil => simp [lfuFindNode] at h
  | cons q t ih =>
    rw [lfuFindNode] at h
    cases hq : nodeFind q.2 key with
    | some x =>
      rw [hq] at h
      cases h
      rcases nodeFind_some hq with ⟨h1, h2⟩
      exact ⟨h2, q, List.mem_cons_self _ _, h1⟩
    | none =>
      rw [hq] at h
      rcases ih h with ⟨h1, p, hp, hn⟩
      exact ⟨h1, p, List.mem_cons_of_mem _ hp, hn⟩

theorem lfuFindNode_eq_none_iff {m : List (Int × List (Node K V))} {key : K} :
    lfuFindNode m key = none ↔ ∀ p ∈ m, ∀ n ∈ p.2, n.m_key ≠ key := by
  induction m with
  | nil => simp [lfuFindNode]
  | cons q t ih =>
    rw [lfuFindNode]
    cases hq : nodeFind q.2 key with
    | some x =>
      simp only [reduceCtorEq, false_iff]
      intro hall
      rcases nodeFind_some hq with ⟨h1, h2⟩
      exact hall q (List.mem_cons_self _ _) x h1 h2
    | none =>
      rw [ih]
      constructor
      · intro hall p hp n hn
        rcases List.mem_cons.mp hp with hp | hp
        · exact nodeFind_eq_none_iff.mp hq n (hp ▸ hn)
        · exact hall p hp n hn
      · intro hall p hp n hn
        exact hall p (List.mem_cons_of_mem _ hp) n hn

theorem lfuFindNode_eq_of_unique {m : List (Int × List (Node K V))} {key : K} {x : Node K V}
    (hex : ∃ p ∈ m, x ∈ p.2) (hx : x.m_key = key)
    (huniq : ∀ p ∈ m, ∀ n ∈ p.2, n.m_key = key → n = x) :
    lfuFindNode m key = some x := by
  cases h : lfuFindNode m key with
  | none =>
    rcases hex with ⟨p, hp, hxp⟩
    exact absurd hx (lfuFindNode_eq_none_iff.mp h p hp x hxp)
  | some n =>
    rcases lfuFindNode_some h with ⟨h1, p, hp, hn⟩
    rw [huniq p hp n hn h1]

end FreqMapLemmas

section LFUBranchLemmas

variable [DecidableEq K]

theorem LFUCache.put_zero (c : LFUCache K V) (key : K) (value : V)
    (hcap : c.m_capacity = 0) : c.put key value = c := by
  unfold LFUCache.put
  rw [if_pos hcap]

theorem LFUCache.put_found (c : LFUCache K V) (key : K) (value : V) (node : Node K V)
    (hcap : c.m_capacity ≠ 0) (hf : lfuFindNode c.m_freqHashmap key = some node) :
    c.put key value = c.touch key node value := by
  unfold LFUCache.put
  rw [if_neg hcap]
  simp only [hf]

theorem LFUCache.put_new_not_full (c : LFUCache K V) (key : K) (value : V)
    (hcap : c.m_capacity ≠ 0) (hf : lfuFindNode c.m_freqHashmap key = none)
    (hne : lfuSize c.m_freqHashmap ≠ c.m_capacity) :
    c.put key value =
      { c with
        m_minimalFreq := 1,
        m_freqHashmap :=
          fhSet c.m_freqHashmap 1 (Node.mk key value 1 :: fhLookup c.m_freqHashmap 1) } := by
  unfold LFUCache.put
  rw [if_neg hcap]
  simp only [hf]
  rw [if_neg hne]

theorem LFUCache.put_new_full (c : LFUCache K V) (key : K) (value : V)
    (hcap : c.m_capacity ≠ 0) (hf : lfuFindNode c.m_freqHashmap key = none)
    (heq : lfuSize c.m_freqHashmap = c.m_capacity) :
    c.put key value =
      { c with
        m_minimalFreq := 1,
        m_freqHashmap := fhSet c.evict 1 (Node.mk key value 1 :: fhLookup c.evict 1) } := by
  unfold LFUCache.put
  rw [if_neg hcap]
  simp only [hf]
  rw [if_pos heq]

theorem LFUCache.get_found (c : LFUCache K V) (key : K) (node : Node K V)
    (hf : lfuFindNode c.m_freqHashmap key = some node) :
    c.get key = (some node.m_value, c.touch key node node.m_value) := by
  unfold LFUCache.get
  rw [hf]

theorem LFUCache.touch_capacity (c : LFUCache K V) (key : K) (node : Node K V) (value : V) :
    (c.touch key node value).m_capacity = c.m_capacity := by
  unfold LFUCache.touch
  split <;> rfl

theorem lfu_put_capacity (c : LFUCache K V) (key : K) (value : V) :
    (c.put key value).m_capacity = c.m_capacity := by
  by_cases hcap : c.m_capacity = 0
  · rw [LFUCache.put_zero c key value hcap]
  · cases hf : lfuFindNode c.m_freqHashmap key with
    | some node => rw [LFUCache.put_found c key value node hcap hf, LFUCache.touch_capacity]
    | none =>
      by_cases hne : lfuSize c.m_freqHashmap = c.m_capacity
      · rw [LFUCache.put_new_full c key value hcap hf hne]
      · rw [LFUCache.put_new_not_full c key value hcap hf hne]

end LFUBranchLemmas

/-- Structural invariant of the LFU frequency map maintained by the
implementation: the frequency keys are pairwise distinct, every bucket
present in the map is non-empty, has frequency at least 1 and contains
only nodes whose stored frequency equals the bucket key, and whenever
the map is non-empty, `m_minimalFreq` is the smallest frequency
present. -/
def LFUInv [DecidableEq K] (c : LFUCache K V) : Prop :=
  (fhKeys c.m_freqHashmap).Nodup ∧
  (∀ p ∈ c.m_freqHashmap, p.2 ≠ [] ∧ 1 ≤ p.1 ∧ ∀ n ∈ p.2, n.m_freq = p.1) ∧
  (c.m_freqHashmap ≠ [] →
    c.m_minimalFreq ∈ fhKeys c.m_freqHashmap ∧
    ∀ p ∈ c.m_freqHashmap, c.m_minimalFreq ≤ p.1)

section LFUInvariant

variable [DecidableEq K]

theorem LFUInv_touch (c : LFUCache K V) (key : K) (node : Node K V) (value : V)
    (hInv : LFUInv c) (hf : lfuFindNode c.m_freqHashmap key = some node) :
    LFUInv (c.touch key node value) := by
  obtain ⟨hA, hB, hF⟩ := hInv
  obtain ⟨hkey, p0, hp0, hnode⟩ := lfuFindNode_some hf
  have hfreq : node.m_freq = p0.1 := (hB p0 hp0).2.2 node hnode
  have hfreq1 : 1 ≤ node.m_freq := hfreq ▸ (hB p0 hp0).2.1
  have hmne : c.m_freqHashmap ≠ [] := fun h => by rw [h] at hp0; simp at hp0
  have hFm := hF hmne
  have hminle : c.m_minimalFreq ≤ node.m_freq := hfreq ▸ hFm.2 p0 hp0
  have hlook : fhLookup c.m_freqHashmap node.m_freq = p0.2 := by
    rw [hfreq]
    exact fhLookup_eq_of_mem hA (by rw [Prod.mk.eta]; exact hp0)
  unfold LFUCache.touch
  by_cases hb : (nodeErase (fhLookup c.m_freqHashmap node.m_freq) key).isEmpty = true
  · rw [if_pos hb]
    have hAE : (fhKeys (fhErase c.m_freqHashmap node.m_freq)).Nodup :=
      hA.sublist (fhErase_sublist.map Prod.fst)
    refine ⟨nodup_keys_fhSet hAE, ?_, fun _ => ?_⟩
    · intro p hp
      rcases mem_fhSet hp with hp | hp
      · subst hp
        refine ⟨by simp, by omega, ?_⟩
        intro n hn
        rcases List.mem_cons.mp hn with hn | hn
        · rw [hn]
        · by_cases hE : fhLookup (fhErase c.m_freqHashmap node.m_freq) (node.m_freq + 1) = []
          · rw [hE] at hn
            simp at hn
          · exact (hB _ (fhErase_sublist.subset (fhLookup_mem hE))).2.2 n hn
      · exact hB p (fhErase_sublist.subset hp)
    · by_cases hmin : c.m_minimalFreq = node.m_freq
      · rw [if_pos hmin]
        constructor
        · rw [hmin]
          exact keys_fhSet_self
        · intro p hp
          show c.m_minimalFreq + 1 ≤ p.1
          rcases mem_fhSet_nodup hAE hp with hp | hp
          · have hp1 : p.1 = node.m_freq + 1 := by rw [hp]
            omega
          · have hne := (mem_fhErase_nodup hA hp.1).2
            have hle := hFm.2 p (mem_fhErase_nodup hA hp.1).1
            omega
      · rw [if_neg hmin]
        constructor
        · rcases List.mem_map.mp hFm.1 with ⟨q, hq, hq1⟩
          have hqE : q ∈ fhErase c.m_freqHashmap node.m_freq :=
            mem_fhErase_of_ne hq (by rw [hq1]; exact hmin)
          exact mem_keys_fhSet (List.mem_map.mpr ⟨q, hqE, hq1⟩)
        · intro p hp
          show c.m_minimalFreq ≤ p.1
          rcases mem_fhSet hp with hp | hp
          · have hp1 : p.1 = node.m_freq + 1 := by rw [hp]
            omega
          · exact hFm.2 p (fhErase_sublist.subset hp)
  · rw [if_neg hb]
    have hbne : nodeErase (fhLookup c.m_freqHashmap node.m_freq) key ≠ [] :=
      fun h => hb (by rw [h]; rfl)
    have hsb : List.Sublist (nodeErase (fhLookup c.m_freqHashmap node.m_freq) key) p0.2 :=
      hlook ▸ nodeErase_sublist
    have hA1 : (fhKeys
        (fhSet c.m_freqHashmap node.m_freq
          (nodeErase (fhLookup c.m_freqHashmap node.m_freq) key))).Nodup :=
      nodup_keys_fhSet hA
    have hB1 : ∀ p ∈ fhSet c.m_freqHashmap node.m_freq
        (nodeErase (fhLookup c.m_freqHashmap node.m_freq) key),
        p.2 ≠ [] ∧ 1 ≤ p.1 ∧ ∀ n ∈ p.2, n.m_freq = p.1 := by
      intro p hp
      rcases mem_fhSet hp with hp | hp
      · subst hp
        refine ⟨hbne, hfreq1, ?_⟩
        intro n hn
        have hn0 : n ∈ p0.2 := hsb.subset hn
        exact hfreq ▸ (hB p0 hp0).2.2 n hn0
      · exact hB p hp
    refine ⟨nodup_keys_fhSet hA1, ?_, fun _ => ?_⟩
    · intro p hp
      rcases mem_fhSet hp with hp | hp
      · subst hp
        refine ⟨by simp, by omega, ?_⟩
        intro n hn
        rcases List.mem_cons.mp hn with hn | hn
        · rw [hn]
        · by_cases hE : fhLookup
              (fhSet c.m_freqHashmap node.m_freq
                (nodeErase (fhLookup c.m_freqHashmap node.m_freq) key))
              (node.m_freq + 1) = []
          · rw [hE] at hn
            simp at hn
          · exact (hB1 _ (fhLookup_mem hE)).2.2 n hn
      · exact hB1 p hp
    · constructor
      · exact mem_keys_fhSet (mem_keys_fhSet hFm.1)
      · intro p hp
        show c.m_minimalFreq ≤ p.1
        rcases mem_fhSet hp with hp | hp
        · have hp1 : p.1 = node.m_freq + 1 := by rw [hp]
          omega
        · rcases mem_fhSet hp with hp | hp
          · have hp1 : p.1 = node.m_freq := by rw [hp]
            omega
          · exact hFm.2 p hp

end LFUInvariant

section LFUInvariantRun

variable [DecidableEq K]

theorem evict_preserves (c : LFUCache K V)
    (hA : (fhKeys c.m_freqHashmap).Nodup)
    (hB : ∀ p ∈ c.m_freqHashmap, p.2 ≠ [] ∧ 1 ≤ p.1 ∧ ∀ n ∈ p.2, n.m_freq = p.1) :
    (fhKeys c.evict).Nodup ∧
    (∀ p ∈ c.evict, p.2 ≠ [] ∧ 1 ≤ p.1 ∧ ∀ n ∈ p.2, n.m_freq = p.1) ∧
    (∀ p ∈ c.evict, ∀ n ∈ p.2, ∃ q ∈ c.m_freqHashmap, n ∈ q.2) := by
  unfold LFUCache.evict
  cases hgl : (fhLookup c.m_freqHashmap c.m_minimalFreq).getLast? with
  | none =>
    exact ⟨hA, hB, fun p hp n hn => ⟨p, hp, hn⟩⟩
  | some x =>
    have hbne : fhLookup c.m_freqHashmap c.m_minimalFreq ≠ [] := by
      intro h
      rw [h] at hgl
      simp at hgl
    have hbmem : (c.m_minimalFreq, fhLookup c.m_freqHashmap c.m_minimalFreq) ∈
        c.m_freqHashmap := fhLookup_mem hbne
    by_cases hd : ((fhLookup c.m_freqHashmap c.m_minimalFreq).dropLast).isEmpty = true
    · rw [if_pos hd]
      refine ⟨hA.sublist (fhErase_sublist.map Prod.fst), ?_, ?_⟩
      · exact fun p hp => hB p (fhErase_sublist.subset hp)
      · exact fun p hp n hn => ⟨p, fhErase_sublist.subset hp, hn⟩
    · rw [if_neg hd]
      have hdne : (fhLookup c.m_freqHashmap c.m_minimalFreq).dropLast ≠ [] :=
        fun h => hd (by rw [h]; rfl)
      refine ⟨nodup_keys_fhSet hA, ?_, ?_⟩
      · intro p hp
        rcases mem_fhSet hp with hp | hp
        · subst hp
          refine ⟨hdne, (hB _ hbmem).2.1, ?_⟩
          intro n hn
          exact (hB _ hbmem).2.2 n
            ((List.dropLast_sublist (fhLookup c.m_freqHashmap c.m_minimalFreq)).subset hn)
        · exact hB p hp
      · intro p hp n hn
        rcases mem_fhSet hp with hp | hp
        · subst hp
          exact ⟨_, hbmem,
            (List.dropLast_sublist (fhLookup c.m_freqHashmap c.m_minimalFreq)).subset hn⟩
        · exact ⟨p, hp, hn⟩

theorem insert_new_inv {m0 : List (Int × List (Node K V))} (key : K) (value : V)
    (hA : (fhKeys m0).Nodup)
    (hB : ∀ p ∈ m0, p.2 ≠ [] ∧ 1 ≤ p.1 ∧ ∀ n ∈ p.2, n.m_freq = p.1) :
    (fhKeys (fhSet m0 1 (Node.mk key value 1 :: fhLookup m0 1))).Nodup ∧
    (∀ p ∈ fhSet m0 1 (Node.mk key value 1 :: fhLookup m0 1),
        p.2 ≠ [] ∧ 1 ≤ p.1 ∧ ∀ n ∈ p.2, n.m_freq = p.1) ∧
    ((1 : Int) ∈ fhKeys (fhSet m0 1 (Node.mk key value 1 :: fhLookup m0 1)) ∧
      ∀ p ∈ fhSet m0 1 (Node.mk key value 1 :: fhLookup m0 1), (1 : Int) ≤ p.1) := by
  refine ⟨nodup_keys_fhSet hA, ?_, keys_fhSet_self, ?_⟩
  · intro p hp
    rcases mem_fhSet hp with hp | hp
    · subst hp
      refine ⟨by simp, le_refl 1, ?_⟩
      intro n hn
      rcases List.mem_cons.mp hn with hn | hn
      · rw [hn]
      · by_cases hE : fhLookup m0 1 = []
        · rw [hE] at hn
          simp at hn
        · exact (hB _ (fhLookup_mem hE)).2.2 n hn
    · exact hB p hp
  · intro p hp
    rcases mem_fhSet hp with hp | hp
    · subst hp
      exact le_refl 1
    · exact (hB p hp).2.1

theorem LFUInv_put (c : LFUCache K V) (key : K) (value : V) (hInv : LFUInv c) :
    LFUInv (c.put key value) := by
  by_cases hcap : c.m_capacity = 0
  · rw [LFUCache.put_zero c key value hcap]
    exact hInv
  · cases hf : lfuFindNode c.m_freqHashmap key with
    | some node =>
      rw [LFUCache.put_found c key value node hcap hf]
      exact LFUInv_touch c key node value hInv hf
    | none =>
      obtain ⟨hA, hB, hF⟩ := hInv
      by_cases hsz : lfuSize c.m_freqHashmap = c.m_capacity
      · rw [LFUCache.put_new_full c key value hcap hf hsz]
        obtain ⟨hA0, hB0, hsub⟩ := evict_preserves c hA hB
        obtain ⟨hA2, hB2, hK2, hL2⟩ := insert_new_inv key value hA0 hB0
        exact ⟨hA2, hB2, fun _ => ⟨hK2, hL2⟩⟩
      · rw [LFUCache.put_new_not_full c key value hcap hf hsz]
        obtain ⟨hA2, hB2, hK2, hL2⟩ := insert_new_inv key value hA hB
        exact ⟨hA2, hB2, fun _ => ⟨hK2, hL2⟩⟩

theorem LFUInv_get (c : LFUCache K V) (key : K) (hInv : LFUInv c) :
    LFUInv (c.get key).2 := by
  cases hf : lfuFindNode c.m_freqHashmap key with
  | none =>
    unfold LFUCache.get
    rw [hf]
    exact hInv
  | some node =>
    rw [LFUCache.get_found c key node hf]
    exact LFUInv_touch c key node node.m_value hInv hf

theorem LFUInv_clear (c : LFUCache K V) : LFUInv c.clear :=
  ⟨by simp [LFUCache.clear, fhKeys_nil], fun p hp => by simp [LFUCache.clear] at hp,
    fun h => absurd rfl h⟩

theorem LFUInv_init (capacity : Nat) : LFUInv (LFUCache.init capacity : LFUCache K V) :=
  ⟨by simp [LFUCache.init, fhKeys_nil], fun p hp => by simp [LFUCache.init] at hp,
    fun h => absurd rfl h⟩

theorem LFUInv_step (c : LFUCache K V) (op : CacheOp K V) (h : LFUInv c) :
    LFUInv (c.step op) := by
  cases op with
  | get k => exact LFUInv_get c k h
  | put k v => exact LFUInv_put c k v h
  | clear => exact LFUInv_clear c

theorem LFUInv_run (c : LFUCache K V) (ops : List (CacheOp K V)) (h : LFUInv c) :
    LFUInv (LFUCache.run c ops) := by
  induction ops generalizing c with
  | nil => exact h
  | cons op t ih =>
    show LFUInv (LFUCache.run (c.step op) t)
    exact ih _ (LFUInv_step c op h)

theorem LFUCache.put_new_minimalFreq (c : LFUCache K V) (key : K) (value : V)
    (hcap : c.m_capacity ≠ 0) (hf : lfuFindNode c.m_freqHashmap key = none) :
    (c.put key value).m_minimalFreq = 1 := by
  by_cases hsz : lfuSize c.m_freqHashmap = c.m_capacity
  · rw [LFUCache.put_new_full c key value hcap hf hsz]
  · rw [LFUCache.put_new_not_full c key value hcap hf hsz]

end LFUInvariantRun

/-- C2: after every sequence of constructor/get/put/clear operations on
an LFU cache, every frequency present in the frequency map has a
non-empty bucket, and whenever the frequency map is non-empty,
`m_minimalFreq` equals the smallest frequency present (it is a present
frequency and a lower bound on all of them); when the cache is empty its
value is unconstrained, and the next insertion of a new key (a `put` of
an absent key with nonzero capacity) sets it to 1. -/
theorem c2_lfu_minfreq_invariant {K V : Type} [DecidableEq K]
    (capacity : Nat) (ops : List (CacheOp K V)) :
    (∀ p ∈ (LFUCache.run (LFUCache.init capacity) ops).m_freqHashmap, p.2 ≠ []) ∧
    ((LFUCache.run (LFUCache.init capacity) ops).m_freqHashmap ≠ [] →
      (LFUCache.run (LFUCache.init capacity) ops).m_minimalFreq ∈
        fhKeys (LFUCache.run (LFUCache.init capacity) ops).m_freqHashmap ∧
      ∀ p ∈ (LFUCache.run (LFUCache.init capacity) ops).m_freqHashmap,
        (LFUCache.run (LFUCache.init capacity) ops).m_minimalFreq ≤ p.1) ∧
    (∀ (key : K) (value : V),
      (LFUCache.run (LFUCache.init capacity) ops).m_capacity ≠ 0 →
      lfuFindNode (LFUCache.run (LFUCache.init capacity) ops).m_freqHashmap key = none →
      ((LFUCache.run (LFUCache.init capacity) ops).put key value).m_minimalFreq = 1) := by
  have h := LFUInv_run (LFUCache.init capacity) ops (LFUInv_init capacity)
  exact ⟨fun p hp => (h.2.1 p hp).1, h.2.2,
    fun key value hcap hf => LFUCache.put_new_minimalFreq _ key value hcap hf⟩

/-- C2 witness: the invariant conclusions of `c2_lfu_minfreq_invariant`
at a concrete run, with the inner hypotheses discharged by computation. -/
theorem c2_lfu_minfreq_witness :
    ((LFUCache.run (LFUCache.init 2 : LFUCache Nat Nat) [CacheOp.put 1 1]).m_minimalFreq ∈
      fhKeys (LFUCache.run (LFUCache.init 2 : LFUCache Nat Nat) [CacheOp.put 1 1]).m_freqHashmap) ∧
    ((LFUCache.run (LFUCache.init 2 : LFUCache Nat Nat) [CacheOp.put 1 1]).put 5 5).m_minimalFreq = 1 :=
  ⟨((c2_lfu_minfreq_invariant 2 [CacheOp.put 1 1]).2.1 (by decide)).1,
    (c2_lfu_minfreq_invariant 2 [CacheOp.put 1 1]).2.2 5 5 (by decide) (by decide)⟩

/-- Well-formedness of an LFU frequency map, used to quantify over cache
states: the frequency keys are pairwise distinct, every node sits in the
bucket of its own frequency, the keys within one bucket are pairwise
distinct, and distinct buckets share no key.  This captures that the key
hash map `m_hashmap` of the C++ class points at a unique node per key;
every reachable LFU state satisfies it. -/
def LFUMapWF [DecidableEq K] (m : List (Int × List (Node K V))) : Prop :=
  (fhKeys m).Nodup ∧
  (∀ p ∈ m, ∀ n ∈ p.2, n.m_freq = p.1) ∧
  (∀ p ∈ m, (p.2.map Node.m_key).Nodup) ∧
  (∀ p ∈ m, ∀ q ∈ m, p.1 ≠ q.1 → ∀ n ∈ p.2, ∀ x ∈ q.2, n.m_key ≠ x.m_key)

section LFUMasterLemmas

variable [DecidableEq K]

theorem only_of_WF {m : List (Int × List (Node K V))} (hWF : LFUMapWF m) {key : K}
    {node : Node K V} (hf : lfuFindNode m key = some node) :
    ∀ p ∈ m, ∀ n ∈ p.2, n.m_key = key → n = node := by
  obtain ⟨hA, hD, hW, hX⟩ := hWF
  obtain ⟨hkey, p0, hp0, hnode⟩ := lfuFindNode_some hf
  intro p hp n hn hk
  by_cases hpq : p.1 = p0.1
  · have hpp0 : p = p0 := List.inj_on_of_nodup_map hA hp hp0 hpq
    subst hpp0
    exact List.inj_on_of_nodup_map (hW p hp) hn hnode (hk.trans hkey.symm)
  · exact absurd (hk.trans hkey.symm) (hX p hp p0 hp0 hpq n hn node hnode)

theorem insert_node_WF {m0 : List (Int × List (Node K V))} (key : K) (value : V) (f1 : Int)
    (hWF0 : LFUMapWF m0)
    (hNoKey : ∀ p ∈ m0, ∀ n ∈ p.2, n.m_key ≠ key) :
    lfuFindNode (fhSet m0 f1 (Node.mk key value f1 :: fhLookup m0 f1)) key =
      some (Node.mk key value f1) ∧
    LFUMapWF (fhSet m0 f1 (Node.mk key value f1 :: fhLookup m0 f1)) := by
  obtain ⟨hA0, hD0, hW0, hX0⟩ := hWF0
  have hr : ∀ n ∈ fhLookup m0 f1, ∃ q ∈ m0, n ∈ q.2 ∧ q.1 = f1 := by
    intro n hn
    have hne : fhLookup m0 f1 ≠ [] := by
      intro h
      rw [h] at hn
      simp at hn
    exact ⟨(f1, fhLookup m0 f1), fhLookup_mem hne, hn, rfl⟩
  have huniq : ∀ p ∈ fhSet m0 f1 (Node.mk key value f1 :: fhLookup m0 f1),
      ∀ n ∈ p.2, n.m_key = key → n = Node.mk key value f1 := by
    intro p hp n hn hk
    rcases mem_fhSet_nodup hA0 hp with hp | hp
    · subst hp
      rcases List.mem_cons.mp hn with hn | hn
      · exact hn
      · rcases hr n hn with ⟨q, hq, hnq, hq1⟩
        exact absurd hk (hNoKey q hq n hnq)
    · exact absurd hk (hNoKey p hp.1 n hn)
  refine ⟨lfuFindNode_eq_of_unique ⟨(f1, _), self_mem_fhSet, List.mem_cons_self _ _⟩ rfl huniq,
    nodup_keys_fhSet hA0, ?_, ?_, ?_⟩
  · intro p hp n hn
    rcases mem_fhSet_nodup hA0 hp with hp | hp
    · subst hp
      rcases List.mem_cons.mp hn with hn | hn
      · rw [hn]
      · rcases hr n hn with ⟨q, hq, hnq, hq1⟩
        rw [hD0 q hq n hnq, hq1]
    · exact hD0 p hp.1 n hn
  · intro p hp
    rcases mem_fhSet_nodup hA0 hp with hp | hp
    · subst hp
      show ((Node.mk key value f1 :: fhLookup m0 f1).map Node.m_key).Nodup
      rw [List.map_cons]
      refine List.nodup_cons.mpr ⟨?_, ?_⟩
      · intro hmem
        rcases List.mem_map.mp hmem with ⟨n, hn, hkeq⟩
        rcases hr n hn with ⟨q, hq, hnq, hq1⟩
        exact hNoKey q hq n hnq hkeq
      · by_cases hEmpty : fhLookup m0 f1 = []
        · rw [hEmpty]
          exact List.nodup_nil
        · exact hW0 _ (fhLookup_mem hEmpty)
    · exact hW0 p hp.1
  · intro p hp q hq hpq n hn x hx
    rcases mem_fhSet_nodup hA0 hp with hp | hp <;> rcases mem_fhSet_nodup hA0 hq with hq | hq
    · rw [hp, hq] at hpq
      exact absurd rfl hpq
    · subst hp
      rcases List.mem_cons.mp hn with hn | hn
      · rw [hn]
        exact fun he => hNoKey q hq.1 x hx he.symm
      · rcases hr n hn with ⟨qn, hqn, hnqn, hqn1⟩
        refine hX0 qn hqn q hq.1 ?_ n hnqn x hx
        rw [hqn1]
        exact fun e => hq.2 e.symm
    · subst hq
      rcases List.mem_cons.mp hx with hx | hx
      · rw [hx]
        exact fun he => hNoKey p hp.1 n hn he
      · rcases hr x hx with ⟨qx, hqx, hxqx, hqx1⟩
        refine hX0 p hp.1 qx hqx ?_ n hn x hxqx
        rw [hqx1]
        exact hp.2
    · exact hX0 p hp.1 q hq.1 hpq n hn x hx

theorem evict_WF (c : LFUCache K V) (hWF : LFUMapWF c.m_freqHashmap) :
    LFUMapWF c.evict ∧ (∀ p ∈ c.evict, ∀ n ∈ p.2, ∃ q ∈ c.m_freqHashmap, n ∈ q.2) := by
  obtain ⟨hA, hD, hW, hX⟩ := hWF
  unfold LFUCache.evict
  cases hgl : (fhLookup c.m_freqHashmap c.m_minimalFreq).getLast? with
  | none => exact ⟨⟨hA, hD, hW, hX⟩, fun p hp n hn => ⟨p, hp, hn⟩⟩
  | some x =>
    have hbne : fhLookup c.m_freqHashmap c.m_minimalFreq ≠ [] := by
      intro h
      rw [h] at hgl
      simp at hgl
    have hbmem := fhLookup_mem hbne
    by_cases hd : ((fhLookup c.m_freqHashmap c.m_minimalFreq).dropLast).isEmpty = true
    · rw [if_pos hd]
      refine ⟨⟨hA.sublist (fhErase_sublist.map Prod.fst), ?_, ?_, ?_⟩, ?_⟩
      · exact fun p hp => hD p (fhErase_sublist.subset hp)
      · exact fun p hp => hW p (fhErase_sublist.subset hp)
      · exact fun p hp q hq => hX p (fhErase_sublist.subset hp) q (fhErase_sublist.subset hq)
      · exact fun p hp n hn => ⟨p, fhErase_sublist.subset hp, hn⟩
    · rw [if_neg hd]
      have hdsub : List.Sublist (fhLookup c.m_freqHashmap c.m_minimalFreq).dropLast
          (fhLookup c.m_freqHashmap c.m_minimalFreq) :=
        List.dropLast_sublist _
      refine ⟨⟨nodup_keys_fhSet hA, ?_, ?_, ?_⟩, ?_⟩
      · intro p hp n hn
        rcases mem_fhSet_nodup hA hp with hp | hp
        · subst hp
          exact hD _ hbmem n (hdsub.subset hn)
        · exact hD p hp.1 n hn
      · intro p hp
        rcases mem_fhSet_nodup hA hp with hp | hp
        · subst hp
          exact (hW _ hbmem).sublist (hdsub.map Node.m_key)
        · exact hW p hp.1
      · intro p hp q hq hpq n hn x hx
        rcases mem_fhSet_nodup hA hp with hp | hp <;> rcases mem_fhSet_nodup hA hq with hq | hq
        · rw [hp, hq] at hpq
          exact absurd rfl hpq
        · subst hp
          exact hX _ hbmem q hq.1 (fun e => hq.2 e.symm) n (hdsub.subset hn) x hx
        · subst hq
          exact hX p hp.1 _ hbmem hp.2 n hn x (hdsub.subset hx)
        · exact hX p hp.1 q hq.1 hpq n hn x hx
      · intro p hp n hn
        rcases mem_fhSet_nodup hA hp with hp | hp
        · subst hp
          exact ⟨_, hbmem, hdsub.subset hn⟩
        · exact ⟨p, hp.1, hn⟩

theorem touch_master (c : LFUCache K V) (key : K) (node : Node K V) (value : V)
    (hWF : LFUMapWF c.m_freqHashmap)
    (hf : lfuFindNode c.m_freqHashmap key = some node) :
    lfuFindNode (c.touch key node value).m_freqHashmap key =
      some (Node.mk key value (node.m_freq + 1)) ∧
    LFUMapWF (c.touch key node value).m_freqHashmap ∧
    lfuSize (c.touch key node value).m_freqHashmap = lfuSize c.m_freqHashmap := by
  obtain ⟨hA, hD, hW, hX⟩ := hWF
  obtain ⟨hkey, p0, hp0, hnode⟩ := lfuFindNode_some hf
  have hfreq : node.m_freq = p0.1 := hD p0 hp0 node hnode
  have hlook : fhLookup c.m_freqHashmap node.m_freq = p0.2 := by
    rw [hfreq]
    exact fhLookup_eq_of_mem hA (by rw [Prod.mk.eta]; exact hp0)
  have hOnly : ∀ p ∈ c.m_freqHashmap, ∀ n ∈ p.2, n.m_key = key → n = node :=
    only_of_WF ⟨hA, hD, hW, hX⟩ hf
  have hlen : (nodeErase p0.2 key).length + 1 = p0.2.length :=
    length_nodeErase ⟨node, hnode, hkey⟩
  have hbkeys : ∀ y ∈ nodeErase p0.2 key, y.m_key ≠ key :=
    fun y hy => nodeErase_no_key (hW p0 hp0) hy
  unfold LFUCache.touch
  rw [hlook]
  by_cases hb : (nodeErase p0.2 key).isEmpty = true
  · rw [if_pos hb]
    have hbnil : nodeErase p0.2 key = [] := by
      cases hcase : nodeErase p0.2 key with
      | nil => rfl
      | cons a t =>
        rw [hcase] at hb
        simp [List.isEmpty] at hb
    have hA1 : (fhKeys (fhErase c.m_freqHashmap node.m_freq)).Nodup :=
      hA.sublist (fhErase_sublist.map Prod.fst)
    have hmem1 : ∀ p ∈ fhErase c.m_freqHashmap node.m_freq,
        p ∈ c.m_freqHashmap ∧ p.1 ≠ node.m_freq :=
      fun p hp => mem_fhErase_nodup hA hp
    have hD1 : ∀ p ∈ fhErase c.m_freqHashmap node.m_freq, ∀ n ∈ p.2, n.m_freq = p.1 :=
      fun p hp => hD p (hmem1 p hp).1
    have hW1 : ∀ p ∈ fhErase c.m_freqHashmap node.m_freq, (p.2.map Node.m_key).Nodup :=
      fun p hp => hW p (hmem1 p hp).1
    have hX1 : ∀ p ∈ fhErase c.m_freqHashmap node.m_freq,
        ∀ q ∈ fhErase c.m_freqHashmap node.m_freq,
        p.1 ≠ q.1 → ∀ n ∈ p.2, ∀ x ∈ q.2, n.m_key ≠ x.m_key :=
      fun p hp q hq => hX p (hmem1 p hp).1 q (hmem1 q hq).1
    have hNoKey1 : ∀ p ∈ fhErase c.m_freqHashmap node.m_freq, ∀ n ∈ p.2, n.m_key ≠ key := by
      intro p hp n hn hk
      have hnn : n = node := hOnly p (hmem1 p hp).1 n hn hk
      have hfp : n.m_freq = p.1 := hD1 p hp n hn
      rw [hnn] at hfp
      exact (hmem1 p hp).2 hfp.symm
    obtain ⟨hfind2, hWF2⟩ :=
      insert_node_WF key value (node.m_freq + 1) ⟨hA1, hD1, hW1, hX1⟩ hNoKey1
    refine ⟨hfind2, hWF2, ?_⟩
    show lfuSize (fhSet (fhErase c.m_freqHashmap node.m_freq) (node.m_freq + 1)
        (Node.mk key value (node.m_freq + 1) ::
          fhLookup (fhErase c.m_freqHashmap node.m_freq) (node.m_freq + 1))) =
      lfuSize c.m_freqHashmap
    have hs1 : lfuSize (fhErase c.m_freqHashmap node.m_freq) +
        (fhLookup c.m_freqHashmap node.m_freq).length = lfuSize c.m_freqHashmap :=
      lfuSize_fhErase
    rw [hlook] at hs1
    have hp02 : p0.2.length = 1 := by
      rw [hbnil] at hlen
      simpa using hlen.symm
    have hs2 := lfuSize_fhSet (m := fhErase c.m_freqHashmap node.m_freq)
      (f := node.m_freq + 1)
      (l := Node.mk key value (node.m_freq + 1) ::
        fhLookup (fhErase c.m_freqHashmap node.m_freq) (node.m_freq + 1))
    simp only [List.length_cons] at hs2
    omega
  · rw [if_neg hb]
    have hbne : nodeErase p0.2 key ≠ [] := fun h => hb (by rw [h]; rfl)
    have hsub : List.Sublist (nodeErase p0.2 key) p0.2 := nodeErase_sublist
    have hA1 : (fhKeys (fhSet c.m_freqHashmap node.m_freq (nodeErase p0.2 key))).Nodup :=
      nodup_keys_fhSet hA
    have hmem1 : ∀ p ∈ fhSet c.m_freqHashmap node.m_freq (nodeErase p0.2 key),
        p = (node.m_freq, nodeErase p0.2 key) ∨
          (p ∈ c.m_freqHashmap ∧ p.1 ≠ node.m_freq) :=
      fun p hp => mem_fhSet_nodup hA hp
    have hD1 : ∀ p ∈ fhSet c.m_freqHashmap node.m_freq (nodeErase p0.2 key),
        ∀ n ∈ p.2, n.m_freq = p.1 := by
      intro p hp n hn
      rcases hmem1 p hp with hp | hp
      · subst hp
        have hn0 : n ∈ p0.2 := hsub.subset hn
        rw [hD p0 hp0 n hn0, ← hfreq]
      · exact hD p hp.1 n hn
    have hW1 : ∀ p ∈ fhSet c.m_freqHashmap node.m_freq (nodeErase p0.2 key),
        (p.2.map Node.m_key).Nodup := by
      intro p hp
      rcases hmem1 p hp with hp | hp
      · subst hp
        exact (hW p0 hp0).sublist (hsub.map Node.m_key)
      · exact hW p hp.1
    have hX1 : ∀ p ∈ fhSet c.m_freqHashmap node.m_freq (nodeErase p0.2 key),
        ∀ q ∈ fhSet c.m_freqHashmap node.m_freq (nodeErase p0.2 key),
        p.1 ≠ q.1 → ∀ n ∈ p.2, ∀ x ∈ q.2, n.m_key ≠ x.m_key := by
      intro p hp q hq hpq n hn x hx
      rcases hmem1 p hp with hp | hp <;> rcases hmem1 q hq with hq | hq
      · rw [hp, hq] at hpq
        exact absurd rfl hpq
      · subst hp
        refine hX p0 hp0 q hq.1 ?_ n (hsub.subset hn) x hx
        rw [← hfreq]
        exact fun e => hq.2 e.symm
      · subst hq
        refine hX p hp.1 p0 hp0 ?_ n hn x (hsub.subset hx)
        rw [← hfreq]
        exact hp.2
      · exact hX p hp.1 q hq.1 hpq n hn x hx
    have hNoKey1 : ∀ p ∈ fhSet c.m_freqHashmap node.m_freq (nodeErase p0.2 key),
        ∀ n ∈ p.2, n.m_key ≠ key := by
      intro p hp n hn hk
      rcases hmem1 p hp with hp | hp
      · subst hp
        exact hbkeys n hn hk
      · have hnn : n = node := hOnly p hp.1 n hn hk
        have hfp : n.m_freq = p.1 := hD p hp.1 n hn
        rw [hnn] at hfp
        exact hp.2 hfp.symm
    obtain ⟨hfind2, hWF2⟩ :=
      insert_node_WF key value (node.m_freq + 1) ⟨hA1, hD1, hW1, hX1⟩ hNoKey1
    refine ⟨hfind2, hWF2, ?_⟩
    show lfuSize (fhSet (fhSet c.m_freqHashmap node.m_freq (nodeErase p0.2 key))
        (node.m_freq + 1)
        (Node.mk key value (node.m_freq + 1) ::
          fhLookup (fhSet c.m_freqHashmap node.m_freq (nodeErase p0.2 key))
            (node.m_freq + 1))) =
      lfuSize c.m_freqHashmap
    have hs1 : lfuSize (fhSet c.m_freqHashmap node.m_freq (nodeErase p0.2 key)) +
        (fhLookup c.m_freqHashmap node.m_freq).length =
        lfuSize c.m_freqHashmap + (nodeErase p0.2 key).length := lfuSize_fhSet
    rw [hlook] at hs1
    have hs2 := lfuSize_fhSet
      (m := fhSet c.m_freqHashmap node.m_freq (nodeErase p0.2 key))
      (f := node.m_freq + 1)
      (l := Node.mk key value (node.m_freq + 1) ::
        fhLookup (fhSet c.m_freqHashmap node.m_freq (nodeErase p0.2 key))
          (node.m_freq + 1))
    simp only [List.length_cons] at hs2
    omega

theorem put_new_master (c : LFUCache K V) (key : K) (value : V)
    (hWF : LFUMapWF c.m_freqHashmap) (hcap : c.m_capacity ≠ 0)
    (hf : lfuFindNode c.m_freqHashmap key = none) :
    lfuFindNode (c.put key value).m_freqHashmap key = some (Node.mk key value 1) ∧
    LFUMapWF (c.put key value).m_freqHashmap := by
  have hNoKey : ∀ p ∈ c.m_freqHashmap, ∀ n ∈ p.2, n.m_key ≠ key :=
    lfuFindNode_eq_none_iff.mp hf
  by_cases hsz : lfuSize c.m_freqHashmap = c.m_capacity
  · rw [LFUCache.put_new_full c key value hcap hf hsz]
    obtain ⟨hWF0, hsub⟩ := evict_WF c hWF
    have hNoKey0 : ∀ p ∈ c.evict, ∀ n ∈ p.2, n.m_key ≠ key := by
      intro p hp n hn
      rcases hsub p hp n hn with ⟨q, hq, hnq⟩
      exact hNoKey q hq n hnq
    exact insert_node_WF key value 1 hWF0 hNoKey0
  · rw [LFUCache.put_new_not_full c key value hcap hf hsz]
    exact insert_node_WF key value 1 hWF hNoKey

end LFUMasterLemmas

/-- C7: for every policy and every cache state with nonzero capacity
(well-formed frequency map in the LFU case), `put(k, v)` followed
immediately by `get(k)` returns `v`; with nonzero capacity the freshly
put key is never evicted by its own `put`, which is the claim's "not yet
evicted" proviso (a capacity-0 `put` drops the key instead of storing
it). -/
theorem c7_round_trip {K V : Type} [DecidableEq K] :
    (∀ (c : FILOCache K V) (key : K) (value : V), c.m_capacity ≠ 0 →
        ((c.put key value).get key).1 = some value) ∧
    (∀ (c : FIFOCache K V) (key : K) (value : V), c.m_capacity ≠ 0 →
        ((c.put key value).get key).1 = some value) ∧
    (∀ (c : LRUCache K V) (key : K) (value : V), c.m_capacity ≠ 0 →
        ((c.put key value).get key).1 = some value) ∧
    (∀ (c : LFUCache K V) (key : K) (value : V), c.m_capacity ≠ 0 →
        LFUMapWF c.m_freqHashmap →
        ((c.put key value).get key).1 = some value) := by
  refine ⟨?_, ?_, ?_, ?_⟩
  · intro c key value hcap
    rw [filo_get_fst]
    exact filo_keyFind_put_self c key value hcap
  · intro c key value hcap
    rw [fifo_get_fst]
    exact fifo_keyFind_put_self c key value hcap
  · intro c key value hcap
    rw [lru_get_fst]
    exact lru_keyFind_put_self c key value hcap
  · intro c key value hcap hWF
    cases hf : lfuFindNode c.m_freqHashmap key with
    | none =>
      obtain ⟨hfind, hWF1⟩ := put_new_master c key value hWF hcap hf
      rw [LFUCache.get_found _ key _ hfind]
    | some node =>
      rw [LFUCache.put_found c key value node hcap hf]
      obtain ⟨hfind, hWF1, hsz⟩ := touch_master c key node value hWF hf
      rw [LFUCache.get_found _ key _ hfind]

/-- C7 witness: the four clauses of `c7_round_trip` at concrete caches of
capacity 2. -/
theorem c7_round_trip_witness :
    (((FILOCache.init 2 : FILOCache Nat Nat).put 1 5).get 1).1 = some 5 ∧
    (((FIFOCache.init 2 : FIFOCache Nat Nat).put 1 5).get 1).1 = some 5 ∧
    (((LRUCache.init 2 : LRUCache Nat Nat).put 1 5).get 1).1 = some 5 ∧
    (((LFUCache.init 2 : LFUCache Nat Nat).put 1 5).get 1).1 = some 5 :=
  ⟨c7_round_trip.1 _ 1 5 (by decide), c7_round_trip.2.1 _ 1 5 (by decide),
    c7_round_trip.2.2.1 _ 1 5 (by decide),
    c7_round_trip.2.2.2 _ 1 5 (by decide) (by unfold LFUMapWF; decide)⟩

/-- C8 counterexample: on a cache constructed with capacity 0 (FILO policy
shown; the claim quantifies over every policy and every cache state),
`put(1,1); put(1,2)` are no-ops and the subsequent `get(1)` fails
KeyNotFound instead of returning the value 2. -/
theorem c8_counterexample :
    ((((FILOCache.init 0 : FILOCache Nat Nat).put 1 1).put 1 2).get 1).1 = none ∧
    ((((FILOCache.init 0 : FILOCache Nat Nat).put 1 1).put 1 2).get 1).1 ≠ some 2 := by
  decide

/-- C8 amended: for every policy and every cache state with nonzero
capacity (well-formed frequency map in the LFU case),
`put(k, v1); put(k, v2); get(k)` returns `v2`, and the size after the
second `put` equals the size before it. -/
theorem c8_amended {K V : Type} [DecidableEq K] :
    (∀ (c : FILOCache K V) (key : K) (v1 v2 : V), c.m_capacity ≠ 0 →
        (((c.put key v1).put key v2).get key).1 = some v2 ∧
        ((c.put key v1).put key v2).m_list.length = (c.put key v1).m_list.length) ∧
    (∀ (c : FIFOCache K V) (key : K) (v1 v2 : V), c.m_capacity ≠ 0 →
        (((c.put key v1).put key v2).get key).1 = some v2 ∧
        ((c.put key v1).put key v2).m_list.length = (c.put key v1).m_list.length) ∧
    (∀ (c : LRUCache K V) (key : K) (v1 v2 : V), c.m_capacity ≠ 0 →
        (((c.put key v1).put key v2).get key).1 = some v2 ∧
        ((c.put key v1).put key v2).m_list.length = (c.put key v1).m_list.length) ∧
    (∀ (c : LFUCache K V) (key : K) (v1 v2 : V), c.m_capacity ≠ 0 →
        LFUMapWF c.m_freqHashmap →
        (((c.put key v1).put key v2).get key).1 = some v2 ∧
        lfuSize ((c.put key v1).put key v2).m_freqHashmap =
          lfuSize (c.put key v1).m_freqHashmap) := by
  refine ⟨?_, ?_, ?_, ?_⟩
  · intro c key v1 v2 hcap
    have hcap1 : (c.put key v1).m_capacity ≠ 0 := by
      rw [filo_put_capacity]
      exact hcap
    have hf1 : keyFind (c.put key v1).m_list key = some v1 :=
      filo_keyFind_put_self c key v1 hcap
    constructor
    · rw [filo_get_fst, filo_put_of_found _ key v2 v1 hcap1 hf1]
      exact keyFind_setValue_self hf1
    · rw [filo_put_of_found _ key v2 v1 hcap1 hf1]
      exact length_setValue
  · intro c key v1 v2 hcap
    have hcap1 : (c.put key v1).m_capacity ≠ 0 := by
      rw [fifo_put_capacity]
      exact hcap
    have hf1 : keyFind (c.put key v1).m_list key = some v1 :=
      fifo_keyFind_put_self c key v1 hcap
    constructor
    · rw [fifo_get_fst, fifo_put_of_found _ key v2 v1 hcap1 hf1]
      exact keyFind_setValue_self hf1
    · rw [fifo_put_of_found _ key v2 v1 hcap1 hf1]
      exact length_setValue
  · intro c key v1 v2 hcap
    have hcap1 : (c.put key v1).m_capacity ≠ 0 := by
      rw [lru_put_capacity]
      exact hcap
    have hf1 : keyFind (c.put key v1).m_list key = some v1 :=
      lru_keyFind_put_self c key v1 hcap
    constructor
    · rw [lru_get_fst, lru_put_of_found _ key v2 v1 hcap1 hf1]
      simp [keyFind]
    · rw [lru_put_of_found _ key v2 v1 hcap1 hf1]
      have hlen := length_eraseKey hf1
      simp only [List.length_cons]
      omega
  · intro c key v1 v2 hcap hWF
    have hcap1 : (c.put key v1).m_capacity ≠ 0 := by
      rw [lfu_put_capacity]
      exact hcap
    have hstep : ∃ n1, lfuFindNode (c.put key v1).m_freqHashmap key = some n1 ∧
        LFUMapWF (c.put key v1).m_freqHashmap := by
      cases hf : lfuFindNode c.m_freqHashmap key with
      | none =>
        obtain ⟨hfind, hWF1⟩ := put_new_master c key v1 hWF hcap hf
        exact ⟨_, hfind, hWF1⟩
      | some node =>
        rw [LFUCache.put_found c key v1 node hcap hf]
        obtain ⟨hfind, hWF1, hsz⟩ := touch_master c key node v1 hWF hf
        exact ⟨_, hfind, hWF1⟩
    obtain ⟨n1, hfind1, hWF1⟩ := hstep
    rw [LFUCache.put_found _ key v2 n1 hcap1 hfind1]
    obtain ⟨hfind2, hWF2, hsize2⟩ := touch_master _ key n1 v2 hWF1 hfind1
    exact ⟨by rw [LFUCache.get_found _ key _ hfind2], hsize2⟩

/-- C8 amended witness: the four clauses of `c8_amended` at concrete
caches of capacity 2. -/
theorem c8_amended_witness :
    ((((FILOCache.init 2 : FILOCache Nat Nat).put 1 1).put 1 2).get 1).1 = some 2 ∧
    ((((FIFOCache.init 2 : FIFOCache Nat Nat).put 1 1).put 1 2).get 1).1 = some 2 ∧
    ((((LRUCache.init 2 : LRUCache Nat Nat).put 1 1).put 1 2).get 1).1 = some 2 ∧
    ((((LFUCache.init 2 : LFUCache Nat Nat).put 1 1).put 1 2).get 1).1 = some 2 :=
  ⟨(c8_amended.1 _ 1 1 2 (by decide)).1, (c8_amended.2.1 _ 1 1 2 (by decide)).1,
    (c8_amended.2.2.1 _ 1 1 2 (by decide)).1,
    (c8_amended.2.2.2 _ 1 1 2 (by decide) (by unfold LFUMapWF; decide)).1⟩

/-- C1 counterexample: on a FIFO cache of capacity 2 holding keys 1 and 2,
`setCapacity(1)` followed by a put of the new key 3 does not evict
(eviction fires only when `m_hashmap.size() == getCapacity()`, and 2 is
not 1): the size grows to 3 and `size ≤ capacity` does not hold after
that next put, contradicting the claim that the violation is transient. -/
theorem c1_counterexample :
    (((((FIFOCache.init 2 : FIFOCache Nat Nat).put 1 1).put 2 2).setCapacity 1).put 3 3).m_list.length = 3 ∧
    (((((FIFOCache.init 2 : FIFOCache Nat Nat).put 1 1).put 2 2).setCapacity 1).put 3 3).m_capacity = 1 ∧
    ¬((((((FIFOCache.init 2 : FIFOCache Nat Nat).put 1 1).put 2 2).setCapacity 1).put 3 3).m_list.length ≤
        (((((FIFOCache.init 2 : FIFOCache Nat Nat).put 1 1).put 2 2).setCapacity 1).put 3 3).m_capacity) := by
  decide

/-- C1 amended: after `setCapacity` shrinks the capacity strictly below
the current size (capacity still nonzero), a put of a new key does not
evict on any policy, because the eviction test compares size and capacity
for equality; the size grows by one, so `size ≤ capacity` stays violated
rather than being restored by the next put. -/
theorem c1_amended {K V : Type} [DecidableEq K] :
    (∀ (c : FILOCache K V) (key : K) (value : V),
        c.m_capacity ≠ 0 → c.m_capacity < c.m_list.length →
        keyFind c.m_list key = none →
        (c.put key value).m_list.length = c.m_list.length + 1) ∧
    (∀ (c : FIFOCache K V) (key : K) (value : V),
        c.m_capacity ≠ 0 → c.m_capacity < c.m_list.length →
        keyFind c.m_list key = none →
        (c.put key value).m_list.length = c.m_list.length + 1) ∧
    (∀ (c : LRUCache K V) (key : K) (value : V),
        c.m_capacity ≠ 0 → c.m_capacity < c.m_list.length →
        keyFind c.m_list key = none →
        (c.put key value).m_list.length = c.m_list.length + 1) ∧
    (∀ (c : LFUCache K V) (key : K) (value : V),
        c.m_capacity ≠ 0 → c.m_capacity < lfuSize c.m_freqHashmap →
        lfuFindNode c.m_freqHashmap key = none →
        lfuSize (c.put key value).m_freqHashmap = lfuSize c.m_freqHashmap + 1) := by
  refine ⟨?_, ?_, ?_, ?_⟩
  · intro c key value hcap hlt hf
    unfold FILOCache.put
    rw [if_neg hcap, hf, if_neg (by omega)]
    simp
  · intro c key value hcap hlt hf
    unfold FIFOCache.put
    rw [if_neg hcap, hf, if_neg (by omega)]
    simp
  · intro c key value hcap hlt hf
    unfold LRUCache.put
    rw [if_neg hcap, hf, if_neg (by omega)]
    simp
  · intro c key value hcap hlt hf
    rw [LFUCache.put_new_not_full c key value hcap hf (by omega)]
    show lfuSize (fhSet c.m_freqHashmap 1 (Node.mk key value 1 :: fhLookup c.m_freqHashmap 1)) =
      lfuSize c.m_freqHashmap + 1
    have h := lfuSize_fhSet (m := c.m_freqHashmap) (f := 1)
      (l := Node.mk key value 1 :: fhLookup c.m_freqHashmap 1)
    simp only [List.length_cons] at h
    omega

/-- C1 amended witness: the four clauses of `c1_amended` instantiated on
concrete oversized caches of capacity 1 holding two entries. -/
theorem c1_amended_witness :
    ((FILOCache.mk 1 [(1, 1), (2, 2)] : FILOCache Nat Nat).put 3 3).m_list.length = 3 ∧
    ((FIFOCache.mk 1 [(1, 1), (2, 2)] : FIFOCache Nat Nat).put 3 3).m_list.length = 3 ∧
    ((LRUCache.mk 1 [(1, 1), (2, 2)] : LRUCache Nat Nat).put 3 3).m_list.length = 3 ∧
    lfuSize ((LFUCache.mk 1 1 [(1, [Node.mk 1 1 1, Node.mk 2 2 1])] : LFUCache Nat Nat).put 3 3).m_freqHashmap = 3 :=
  ⟨c1_amended.1 _ 3 3 (by decide) (by decide) (by decide),
    c1_amended.2.1 _ 3 3 (by decide) (by decide) (by decide),
    c1_amended.2.2.1 _ 3 3 (by decide) (by decide) (by decide),
    c1_amended.2.2.2 _ 3 3 (by decide) (by decide) (by decide)⟩

end CacheImpl
